import Mathlib

/-! # An intrusive AVL tree (`btree.c`): shallow embedding and verification

The C program keeps a height-balanced binary search tree whose nodes
(`struct priv_btree_node`: `left`, `right`, `height`) are embedded in caller-owned
elements.  The embedding below represents

* a node pointer by a value of `priv_btree_node α`: `null` is the `NULL` pointer and
  `node l x h r` is the record of the element `x : α` (its identity and payload) with
  `left = l`, `right = r` and cached `height = h`;
* the three callbacks stored in `struct btree` by `btree_ops`; the engine only reads them;
* the mutable part of `struct btree` (`root`, `size`) by `btree`; `size` is a `uint32_t`,
  so every update is taken modulo `2 ^ 32`;
* `int` heights by `Int`;
* an access through a `NULL` pointer (undefined behaviour in C) by the result `none` of an
  `Option`-valued function.

A pointer structure is represented by a tree value, which is exact as long as every element is
linked at most once (the ownership discipline of the data model).  The one place where the C
code writes through a pointer that may already be linked, the reset of the header of the node
passed to `btree_insert`, is modelled by `reset_header`.
-/

namespace Btree

/-! ## Data model -/

/-- The record `struct priv_btree_node`, seen through a pointer: `null` is `NULL`. -/
inductive priv_btree_node (α : Type) where
  | null : priv_btree_node α
  | node (left : priv_btree_node α) (elem : α) (height : Int) (right : priv_btree_node α) :
      priv_btree_node α
deriving DecidableEq, Repr

/-- The callbacks held by `struct btree` (`compare_node`, `compare_node_key`, `get_key_ptr`).
A key pointer returned by `get_key_ptr` may be `NULL`, written `none`. -/
structure btree_ops (α κ : Type) where
  compare_node : α → α → Int
  compare_node_key : α → κ → Int
  get_key_ptr : α → Option κ

/-- The mutable fields of `struct btree`. -/
structure btree (α : Type) where
  root : priv_btree_node α
  size : Nat
deriving DecidableEq, Repr

open priv_btree_node

variable {α κ σ : Type}

/-- Value of `EINVAL` in `errno.h`. -/
def EINVAL : Int := 22

/-- Value of `EEXIST` in `errno.h`. -/
def EEXIST : Int := 17

/-- Number of values of the `uint32_t` counter `size`. -/
def UINT32_MOD : Nat := 2 ^ 32

/-! ## Helpers of `btree.c` -/

/-- C function `height(node)`: the cached height, `0` for `NULL`. -/
def height : priv_btree_node α → Int
  | null => 0
  | node _ _ h _ => h

/-- C function `update_height(root)`: `1 + max(height(root->left), height(root->right))`; the two
arguments are the children read through `root`, which every caller has dereferenced before. -/
def update_height (left right : priv_btree_node α) : Int :=
  1 + max (height left) (height right)

/-- C function `r_rotate(y)`: `x = y->left` becomes the subtree root, `y` its right child and
`z = x->right` the left child of `y`; `y->height` is recomputed first, then `x->height`.
Reading `y->left` or `x->right` through `NULL` gives `none`. -/
def r_rotate : priv_btree_node α → Option (priv_btree_node α)
  | node (node a x _ z) y _ c =>
      let y1 := node z y (update_height z c) c
      some (node a x (update_height a y1) y1)
  | _ => none

/-- C function `l_rotate(x)`: `y = x->right` becomes the subtree root, `x` its left child and
`z = y->left` the right child of `x`; `x->height` is recomputed first, then `y->height`. -/
def l_rotate : priv_btree_node α → Option (priv_btree_node α)
  | node a x _ (node z y _ c) =>
      let x1 := node a x (update_height a z) z
      some (node x1 y (update_height x1 c) c)
  | _ => none

/-- C function `get_balance(node)`: `height(left) - height(right)`, `0` for `NULL`. -/
def get_balance : priv_btree_node α → Int
  | null => 0
  | node l _ _ r => height l - height r

/-- C function `min_value_node(node)`: the leftmost node below `node`; `none` when `node` is `NULL`
(the loop condition reads `tmp->left`). -/
def min_value_node : priv_btree_node α → Option α
  | null => none
  | node null x _ _ => some x
  | node (node ll lx lh lr) _ _ _ => min_value_node (node ll lx lh lr)

/-! ## Insertion -/

/-- Lines 128-153 of `insert`: after the recursive call has stored its result in `root`, whose
children are now `l` and `r`, recompute `root->height` and rotate when the balance factor left
the range. The rotation is chosen by comparing the new node with the heavy child; calling
`compare_node` with a `NULL` child gives `none`. -/
def insert_rebalance (ops : btree_ops α κ) (l : priv_btree_node α) (x : α)
    (r : priv_btree_node α) (e : α) : Option (priv_btree_node α) :=
  let root := node l x (update_height l r) r
  let b := get_balance root
  if b > 1 then
    match l with
    | null => none
    | node _ lx _ _ =>
      let comp := ops.compare_node e lx
      if comp < 0 then r_rotate root
      else if comp > 0 then
        match l_rotate l with
        | none => none
        | some l1 => r_rotate (node l1 x (update_height l r) r)
      else some root
  else if b < -1 then
    match r with
    | null => none
    | node _ rx _ _ =>
      let comp := ops.compare_node e rx
      if comp > 0 then l_rotate root
      else if comp < 0 then
        match r_rotate r with
        | none => none
        | some r1 => l_rotate (node l x (update_height l r) r1)
      else some root
  else some root

/-- C function `insert(tree, root, node)`: recursive descent by `compare_node(node, root)`. The result
`some null` is the `NULL` return (an equal key was met, nothing was written); `e` is the
element of `node`, whose `left` and `right` were set to `NULL` by `btree_insert`. -/
def insert (ops : btree_ops α κ) : priv_btree_node α → α → Option (priv_btree_node α)
  | null, e => some (node null e 1 null)
  | node l x _ r, e =>
    let comp := ops.compare_node e x
    if comp < 0 then
      match insert ops l e with
      | none => none
      | some null => some null
      | some (node a y hy b) => insert_rebalance ops (node a y hy b) x r e
    else if comp > 0 then
      match insert ops r e with
      | none => none
      | some null => some null
      | some (node a y hy b) => insert_rebalance ops l x (node a y hy b) e
    else some null

/-- The three stores `node->right = NULL; node->left = NULL; node->height = 1` of
`btree_insert`, as seen from the tree: they change the tree exactly when the node passed is
already linked in it, and then cut off what hangs below that node. -/
def reset_header [DecidableEq α] (e : α) : priv_btree_node α → priv_btree_node α
  | null => null
  | node l x h r =>
    if x = e then node null x 1 null
    else node (reset_header e l) x h (reset_header e r)

/-! ## Deletion -/

/-- C function `balance(root)`: the four rotation cases, chosen by the balance factor of the heavy child. -/
def balance : priv_btree_node α → Option (priv_btree_node α)
  | null => some null
  | node l x h r =>
    let b := get_balance (node l x h r)
    if b > 1 ∧ get_balance l ≥ 0 then r_rotate (node l x h r)
    else if b > 1 ∧ get_balance l < 0 then
      match l_rotate l with
      | none => none
      | some l1 => r_rotate (node l1 x h r)
    else if b < -1 ∧ get_balance r ≤ 0 then l_rotate (node l x h r)
    else if b < -1 ∧ get_balance r > 0 then
      match r_rotate r with
      | none => none
      | some r1 => l_rotate (node l x h r1)
    else some (node l x h r)

/-- Lines 229-235 of `delete_node`: `NULL` is returned as it is, any other `root` has its
height recomputed and goes through `balance`. -/
def delete_finish : priv_btree_node α → Option (priv_btree_node α)
  | null => some null
  | node l x _ r => balance (node l x (update_height l r) r)

/-- C function `delete_node(tree, root, key_ptr, rm_node)`: the result is the new subtree root together
with what the call stored in `*rm_node` (`none` when it stored nothing). -/
def delete_node (ops : btree_ops α κ) :
    priv_btree_node α → Option κ → Option (priv_btree_node α × Option α)
  | null, _ => some (null, none)
  | node _ _ _ _, none => some (null, none)
  | node l x h r, some k =>
    let comp := ops.compare_node_key x k
    if comp > 0 then
      match delete_node ops l (some k) with
      | none => none
      | some (l1, rm) => (delete_finish (node l1 x h r)).map (fun t => (t, rm))
    else if comp < 0 then
      match delete_node ops r (some k) with
      | none => none
      | some (r1, rm) => (delete_finish (node l x h r1)).map (fun t => (t, rm))
    else
      match l, r with
      | null, _ => (delete_finish r).map (fun t => (t, some x))
      | node ll lx lh lr, null => (delete_finish (node ll lx lh lr)).map (fun t => (t, some x))
      | node ll lx lh lr, node rl rx rh rr =>
        match min_value_node (node rl rx rh rr) with
        | none => none
        | some tmp =>
          match delete_node ops (node rl rx rh rr) (ops.get_key_ptr tmp) with
          | none => none
          | some (_, none) => some (null, some x)
          | some (r1, some removed) =>
            (delete_finish (node (node ll lx lh lr) removed h r1)).map (fun t => (t, some x))

/-! ## Traversal and lookup -/

/-- C function `walk(node, fn)`: left subtree, `fn(node)`, right subtree. The visitor acts on a state
`σ`, which stands for whatever the C callback reads and writes. -/
def walk (fn : α → σ → σ) : priv_btree_node α → σ → σ
  | null, st => st
  | node l x _ r, st => walk fn r (fn x (walk fn l st))

/-- C function `get_node(tree, node, key_ptr)` for a key pointer that is not `NULL`. -/
def get_node (ops : btree_ops α κ) : priv_btree_node α → κ → Option α
  | null, _ => none
  | node l x _ r, k =>
    let comp := ops.compare_node_key x k
    if comp > 0 then get_node ops l k
    else if comp < 0 then get_node ops r k
    else some x

/-! ## Public operations -/

/-- C function `btree_init(tree)`: empty root, size `0`. -/
def btree_init (_tree : btree α) : btree α :=
  { root := null, size := 0 }

/-- C function `btree_insert(tree, node_ptr)`: the new state and the returned code. -/
def btree_insert [DecidableEq α] (ops : btree_ops α κ) (tree : btree α) (node_ptr : Option α) :
    Option (btree α × Int) :=
  match node_ptr with
  | none => some (tree, -EINVAL)
  | some e =>
    if (ops.get_key_ptr e).isNone then some (tree, -EINVAL)
    else
      match reset_header e tree.root with
      | null => some ({ root := node null e 1 null, size := (tree.size + 1) % UINT32_MOD }, 0)
      | node l x h r =>
        match insert ops (node l x h r) e with
        | none => none
        | some null => some ({ root := node l x h r, size := tree.size }, -EEXIST)
        | some (node a y hy b) =>
          some ({ root := node a y hy b, size := (tree.size + 1) % UINT32_MOD }, 0)

/-- C function `btree_remove(tree, key_ptr)`: the new state and the returned node (`none` is `NULL`). -/
def btree_remove (ops : btree_ops α κ) (tree : btree α) (key_ptr : Option κ) :
    Option (btree α × Option α) :=
  match delete_node ops tree.root key_ptr with
  | none => none
  | some (root, removed) =>
    some ({ root := root, size := (tree.size + (UINT32_MOD - 1)) % UINT32_MOD }, removed)

/-- C function `btree_walk(tree, fn)`: nothing happens when `tree` or `fn` is `NULL`. -/
def btree_walk (tree : Option (btree α)) (fn : Option (α → σ → σ)) (st : σ) : σ :=
  match tree, fn with
  | some t, some f => walk f t.root st
  | _, _ => st

/-- C function `btree_get(tree, key_ptr)`: the state after the call and the returned node. -/
def btree_get (ops : btree_ops α κ) (tree : Option (btree α)) (key_ptr : Option κ) :
    Option (btree α) × Option α :=
  match tree, key_ptr with
  | some t, some k => (some t, get_node ops t.root k)
  | t, _ => (t, none)

/-! ## Properties of trees and of call sequences -/

/-- The nodes of a tree in left-node-right order. -/
def inorder : priv_btree_node α → List α
  | null => []
  | node l x _ r => inorder l ++ x :: inorder r

/-- Number of nodes reachable from a node pointer. -/
def count_nodes : priv_btree_node α → Nat
  | null => 0
  | node l _ _ r => count_nodes l + 1 + count_nodes r

/-- The true height of a subtree: `0` for `NULL`, one more than the higher child otherwise. -/
def true_height : priv_btree_node α → Nat
  | null => 0
  | node l _ _ r => 1 + max (true_height l) (true_height r)

/-- Balance invariant: at every node the true heights of the two children differ by at most
one. -/
def Balanced : priv_btree_node α → Prop
  | null => True
  | node l _ _ r =>
    Balanced l ∧ Balanced r ∧
      (true_height l : Int) - (true_height r : Int) ≤ 1 ∧
      -1 ≤ (true_height l : Int) - (true_height r : Int)

/-- Cached-height invariant: at every node `height == 1 + max(height(left), height(right))`. -/
def HeightsCached : priv_btree_node α → Prop
  | null => True
  | node l _ h r => HeightsCached l ∧ HeightsCached r ∧ h = update_height l r

/-- Order invariant: the in-order sequence is strictly ascending under `compare_node`. -/
def Ordered (ops : btree_ops α κ) (t : priv_btree_node α) : Prop :=
  (inorder t).Pairwise (fun a b => ops.compare_node a b < 0)

/-- Every linked node has a key: `get_key_ptr` is not `NULL` on it (`btree_insert` refuses
any other node). -/
def Keyed (ops : btree_ops α κ) (t : priv_btree_node α) : Prop :=
  ∀ x ∈ inorder t, (ops.get_key_ptr x).isSome = true

/-- Lawful callbacks: `compare_node` is a strict total order on keys (elements that compare
equal are interchangeable), and `compare_node_key` compares an element with a bare key
consistently with it. -/
structure Lawful (ops : btree_ops α κ) : Prop where
  antisymm : ∀ a b, ops.compare_node a b < 0 ↔ ops.compare_node b a > 0
  trans : ∀ a b c, ops.compare_node a b < 0 → ops.compare_node b c < 0 →
    ops.compare_node a c < 0
  eq_trans : ∀ a b c, ops.compare_node a b = 0 → ops.compare_node b c < 0 →
    ops.compare_node a c < 0
  key_self : ∀ e k, ops.get_key_ptr e = some k → ops.compare_node_key e k = 0
  key_mono : ∀ a b k, ops.compare_node_key a k ≤ 0 → 0 ≤ ops.compare_node_key b k →
    (ops.compare_node_key a k < 0 ∨ 0 < ops.compare_node_key b k) → ops.compare_node a b < 0
  key_eq : ∀ a b k, ops.compare_node_key a k = 0 → ops.compare_node_key b k = 0 →
    ops.compare_node a b = 0

/-- A call of the public interface that changes the tree. -/
inductive call (α κ : Type) where
  | insert (node_ptr : Option α) : call α κ
  | remove (key_ptr : Option κ) : call α κ

/-- The state after one call; `none` when the call runs into undefined behaviour. -/
def step [DecidableEq α] (ops : btree_ops α κ) (tree : btree α) : call α κ → Option (btree α)
  | call.insert node_ptr => (btree_insert ops tree node_ptr).map (fun p => p.1)
  | call.remove key_ptr => (btree_remove ops tree key_ptr).map (fun p => p.1)

/-- The state after a sequence of calls. -/
def run [DecidableEq α] (ops : btree_ops α κ) : btree α → List (call α κ) → Option (btree α)
  | tree, [] => some tree
  | tree, c :: cs =>
    match step ops tree c with
    | none => none
    | some tree1 => run ops tree1 cs

/-- The call sequence respects ownership: no `btree_insert` is given a node that is linked in
the tree at the time of the call. -/
def caller_owned [DecidableEq α] (ops : btree_ops α κ) : btree α → List (call α κ) → Bool
  | _, [] => true
  | tree, c :: cs =>
    (match c with
      | call.insert (some e) => decide (e ∉ inorder tree.root)
      | _ => true) &&
    (match step ops tree c with
      | none => true
      | some tree1 => caller_owned ops tree1 cs)

/-! ## The example program's element type and callbacks (`examples/test.c`) -/

/-- The element `struct data` of the example: `id` stands for the address of the element,
`key` is its `int key`. -/
structure data where
  id : Nat
  key : Int
deriving DecidableEq, Repr

/-- Callbacks of the example program: both comparators compare the `int` keys and return
`0`, `-1` or `1`; `get_key_ptr` returns the address of the key field. -/
def example_ops : btree_ops data Int where
  compare_node := fun a b => if a.key = b.key then 0 else if a.key < b.key then -1 else 1
  compare_node_key := fun a k => if a.key = k then 0 else if a.key < k then -1 else 1
  get_key_ptr := fun a => some a.key

/-- The element with address `n` and key `n`. -/
def elem_of (n : Nat) : data := { id := n, key := n }

/-! ## Auxiliary predicates, decision procedures and concrete inputs -/

/-- Shape of an insertion into a sorted sequence: `e` is put between the elements below it and
the elements above it. -/
def InsertedAt (ops : btree_ops α κ) (e : α) (before after : List α) : Prop :=
  ∃ L1 L2, before = L1 ++ L2 ∧ after = L1 ++ e :: L2 ∧
    (∀ a ∈ L1, ops.compare_node a e < 0) ∧ (∀ b ∈ L2, ops.compare_node e b < 0)

/-- AVL validity on cached heights: every cached height is right and every cached balance
factor is in range. -/
def Avl : priv_btree_node α → Prop
  | null => True
  | node l _ h r =>
    Avl l ∧ Avl r ∧ h = update_height l r ∧ height l - height r ≤ 1 ∧ -1 ≤ height l - height r

/-- What `insert` does to the height of an AVL subtree: it stays, or it grows by one, and
then either the subtree was empty or its root stayed and leans to the side the node went. -/
def Grown (ops : btree_ops α κ) (e : α) (t t1 : priv_btree_node α) : Prop :=
  height t1 = height t ∨
    (height t1 = height t + 1 ∧
      (t = null ∨ ∃ l x h r a h1 b, t = node l x h r ∧ t1 = node a x h1 b ∧
        ((ops.compare_node e x < 0 ∧ height a = height b + 1) ∨
          (ops.compare_node e x > 0 ∧ height b = height a + 1))))

/-- Shape of a deletion from a sequence: exactly the one occurrence `m` is taken out. -/
def RemovedAt (m : α) (before after : List α) : Prop :=
  ∃ L1 L2, before = L1 ++ m :: L2 ∧ after = L1 ++ L2

/-- Search-tree order at every node: everything in the left subtree compares below the node,
everything in the right subtree above it. -/
def SearchTree (ops : btree_ops α κ) : priv_btree_node α → Prop
  | null => True
  | node l x _ r =>
    SearchTree ops l ∧ SearchTree ops r ∧ (∀ a ∈ inorder l, ops.compare_node a x < 0) ∧
      (∀ b ∈ inorder r, ops.compare_node x b < 0)

instance Ordered.instDecidable (ops : btree_ops α κ) (t : priv_btree_node α) :
    Decidable (Ordered ops t) :=
  inferInstanceAs (Decidable ((inorder t).Pairwise (fun a b => ops.compare_node a b < 0)))

instance Keyed.instDecidable (ops : btree_ops α κ) (t : priv_btree_node α) :
    Decidable (Keyed ops t) :=
  inferInstanceAs (Decidable (∀ x ∈ inorder t, (ops.get_key_ptr x).isSome = true))

instance Balanced.instDecidable : (t : priv_btree_node α) → Decidable (Balanced t)
  | null => isTrue trivial
  | node l _ _ r =>
    have := Balanced.instDecidable l
    have := Balanced.instDecidable r
    inferInstanceAs (Decidable (Balanced l ∧ Balanced r ∧
      (true_height l : Int) - (true_height r : Int) ≤ 1 ∧
      -1 ≤ (true_height l : Int) - (true_height r : Int)))

instance HeightsCached.instDecidable : (t : priv_btree_node α) → Decidable (HeightsCached t)
  | null => isTrue trivial
  | node l _ h r =>
    have := HeightsCached.instDecidable l
    have := HeightsCached.instDecidable r
    inferInstanceAs (Decidable (HeightsCached l ∧ HeightsCached r ∧ h = update_height l r))

instance SearchTree.instDecidable (ops : btree_ops α κ) :
    (t : priv_btree_node α) → Decidable (SearchTree ops t)
  | null => isTrue trivial
  | node l x _ r =>
    have := SearchTree.instDecidable ops l
    have := SearchTree.instDecidable ops r
    inferInstanceAs (Decidable (SearchTree ops l ∧ SearchTree ops r ∧
      (∀ a ∈ inorder l, ops.compare_node a x < 0) ∧ (∀ b ∈ inorder r, ops.compare_node x b < 0)))

/-- The call `btree_insert(&tree, &n)` for the element with key `n`. -/
def insert_key (n : Nat) : call data Int := call.insert (some (elem_of n))

/-- A leaf holding the element with key `n`. -/
def leaf (n : Nat) : priv_btree_node data := node null (elem_of n) 1 null

/-- Seven inserts that build a valid tree, then `btree_insert` of the node with key 2, which
is linked in the tree. -/
def reinsert_calls : List (call data Int) :=
  [insert_key 4, insert_key 3, insert_key 2, insert_key 1, insert_key 5, insert_key 6,
    insert_key 7, insert_key 2]

/-- The state after `reinsert_calls`: node 2 has lost its child 1, the root leans right by 2. -/
def reinsert_state : btree data :=
  { root := node (leaf 2) (elem_of 3) 4
      (node (leaf 4) (elem_of 5) 3 (node null (elem_of 6) 2 (leaf 7))),
    size := 7 }

/-- Calls that respect ownership: inserts of unlinked nodes (one with a key already present),
removes of a present key, of an absent key and with a `NULL` key pointer, and an insert of
`NULL`. -/
def owned_calls : List (call data Int) :=
  [insert_key 9, call.remove none, insert_key 4, insert_key 3, insert_key 2,
    call.insert (some { id := 9, key := 3 }), call.remove (some 3), call.remove (some 8),
    call.insert none, insert_key 1, insert_key 5]

/-- A valid three-node tree with keys 1, 2, 3 and size 3. -/
def small_tree : btree data :=
  { root := node (leaf 1) (elem_of 2) 2 (leaf 3), size := 3 }

/-! ## Definitions for the scenario, the refinement and the safety claims -/

/-- The record of the element `e` as it is linked in a tree, `none` when it is not linked. -/
def header_in [DecidableEq α] (e : α) : priv_btree_node α → Option (priv_btree_node α)
  | null => none
  | node l x h r =>
    if x = e then some (node l x h r)
    else
      match header_in e l with
      | some hdr => some hdr
      | none => header_in e r

/-- The header (`left`, `right`, `height`) of the node passed to `btree_insert`, after the call,
when the node is the element `e` and its header was `node l e h r` before the call. The two
`-EINVAL` returns (lines 274-276) come before any store; otherwise lines 278-280 store `NULL`,
`NULL` and `1`, and when the node is linked afterwards its header is the one it has in the
tree. -/
def btree_insert_node [DecidableEq α] (ops : btree_ops α κ) (tree : btree α) (e : α)
    (l : priv_btree_node α) (h : Int) (r : priv_btree_node α) : Option (priv_btree_node α) :=
  if (ops.get_key_ptr e).isNone then some (node l e h r)
  else
    match btree_insert ops tree (some e) with
    | none => none
    | some (tree1, _) =>
      match header_in e tree1.root with
      | some hdr => some hdr
      | none => some (node null e 1 null)

/-- Every cached balance factor `get_balance` is in the range from -1 to 1. -/
def BalanceFactorsOk : priv_btree_node α → Prop
  | null => True
  | node l x h r =>
    BalanceFactorsOk l ∧ BalanceFactorsOk r ∧
      get_balance (node l x h r) ≤ 1 ∧ -1 ≤ get_balance (node l x h r)

instance BalanceFactorsOk.instDecidable :
    (t : priv_btree_node α) → Decidable (BalanceFactorsOk t)
  | null => isTrue trivial
  | node l x h r =>
    have := BalanceFactorsOk.instDecidable l
    have := BalanceFactorsOk.instDecidable r
    inferInstanceAs (Decidable (BalanceFactorsOk l ∧ BalanceFactorsOk r ∧
      get_balance (node l x h r) ≤ 1 ∧ -1 ≤ get_balance (node l x h r)))

/-- Every cached height is the true height of the subtree below the node, and is at least 1. -/
def HeightsTrue : priv_btree_node α → Prop
  | null => True
  | node l x h r =>
    HeightsTrue l ∧ HeightsTrue r ∧ h = (true_height (node l x h r) : Int) ∧ 1 ≤ h

instance HeightsTrue.instDecidable : (t : priv_btree_node α) → Decidable (HeightsTrue t)
  | null => isTrue trivial
  | node l x h r =>
    have := HeightsTrue.instDecidable l
    have := HeightsTrue.instDecidable r
    inferInstanceAs (Decidable (HeightsTrue l ∧ HeightsTrue r ∧
      h = (true_height (node l x h r) : Int) ∧ 1 ≤ h))

/-- A sequence of `btree_insert` calls: the final state and the returned codes in call order. -/
def insert_all [DecidableEq α] (ops : btree_ops α κ) :
    btree α → List (Option α) → Option (btree α × List Int)
  | tree, [] => some (tree, [])
  | tree, n :: ns =>
    match btree_insert ops tree n with
    | none => none
    | some (tree1, rc) =>
      match insert_all ops tree1 ns with
      | none => none
      | some (tree2, rcs) => some (tree2, rc :: rcs)

/-- Keys of the example program in the order of its `btree_insert` calls. -/
def scenario_keys : List Nat :=
  [50, 10, 47, 108, 13, 5, 1, 127, 354562934, 2345, 123, 111]

/-- The twelve `btree_insert` calls of the example program. -/
def scenario_calls : List (call data Int) := scenario_keys.map insert_key

/-- The tree after the twelve inserts of the example program. -/
def scenario_tree : btree data :=
  { root :=
      node (node (node (leaf 1) (elem_of 5) 2 null) (elem_of 10) 3 (leaf 13)) (elem_of 47) 5
        (node (node (leaf 50) (elem_of 108) 3 (node (leaf 111) (elem_of 123) 2 null))
          (elem_of 127) 4 (node null (elem_of 2345) 2 (leaf 354562934))),
    size := 12 }

/-- Four inserts, then `btree_insert` of the node with key 3, which is linked and has a
child. -/
def stale_calls : List (call data Int) :=
  [insert_key 2, insert_key 1, insert_key 3, insert_key 4, insert_key 3]

/-- The state after `stale_calls`: node 3 has lost its child, the root still caches height 3. -/
def stale_state : btree data :=
  { root := node (leaf 1) (elem_of 2) 3 (leaf 3), size := 4 }

/-- The variant of `insert` that ends with `return balance(root)`: lines 99-128 of `insert` as
they are, then `balance` in place of lines 130-153. -/
def insert_with_balance (ops : btree_ops α κ) :
    priv_btree_node α → α → Option (priv_btree_node α)
  | null, e => some (node null e 1 null)
  | node l x _ r, e =>
    let comp := ops.compare_node e x
    if comp < 0 then
      match insert_with_balance ops l e with
      | none => none
      | some null => some null
      | some (node a y hy b) =>
        balance (node (node a y hy b) x (update_height (node a y hy b) r) r)
    else if comp > 0 then
      match insert_with_balance ops r e with
      | none => none
      | some null => some null
      | some (node a y hy b) =>
        balance (node l x (update_height l (node a y hy b)) (node a y hy b))
    else some null

/-- The function `delete_node` with the guard `removed != NULL` of the two-children case made
observable: where the guard fails the result is `none`, everything else is `delete_node`. -/
def delete_node_checked (ops : btree_ops α κ) :
    priv_btree_node α → Option κ → Option (priv_btree_node α × Option α)
  | null, _ => some (null, none)
  | node _ _ _ _, none => some (null, none)
  | node l x h r, some k =>
    let comp := ops.compare_node_key x k
    if comp > 0 then
      match delete_node_checked ops l (some k) with
      | none => none
      | some (l1, rm) => (delete_finish (node l1 x h r)).map (fun t => (t, rm))
    else if comp < 0 then
      match delete_node_checked ops r (some k) with
      | none => none
      | some (r1, rm) => (delete_finish (node l x h r1)).map (fun t => (t, rm))
    else
      match l, r with
      | null, _ => (delete_finish r).map (fun t => (t, some x))
      | node ll lx lh lr, null => (delete_finish (node ll lx lh lr)).map (fun t => (t, some x))
      | node ll lx lh lr, node rl rx rh rr =>
        match min_value_node (node rl rx rh rr) with
        | none => none
        | some tmp =>
          match delete_node_checked ops (node rl rx rh rr) (ops.get_key_ptr tmp) with
          | none => none
          | some (_, none) => none
          | some (r1, some removed) =>
            (delete_finish (node (node ll lx lh lr) removed h r1)).map (fun t => (t, some x))

/-- Nested activations of `insert` during `insert(tree, root, node)`. -/
def insert_depth (ops : btree_ops α κ) : priv_btree_node α → α → Nat
  | null, _ => 1
  | node l x _ r, e =>
    if ops.compare_node e x < 0 then 1 + insert_depth ops l e
    else if ops.compare_node e x > 0 then 1 + insert_depth ops r e
    else 1

/-- Nested activations of `get_node` during `get_node(tree, node, key_ptr)`. -/
def get_node_depth (ops : btree_ops α κ) : priv_btree_node α → κ → Nat
  | null, _ => 1
  | node l x _ r, k =>
    if ops.compare_node_key x k > 0 then 1 + get_node_depth ops l k
    else if ops.compare_node_key x k < 0 then 1 + get_node_depth ops r k
    else 1

/-- Nested activations of `walk` during `walk(node, fn)`; the call on `NULL` counts. -/
def walk_depth : priv_btree_node α → Nat
  | null => 1
  | node l _ _ r => 1 + max (walk_depth l) (walk_depth r)

/-- Nested activations of `delete_node` during `delete_node(tree, root, key_ptr, rm_node)`;
in the two-children case the function calls itself on the right subtree. -/
def delete_node_depth (ops : btree_ops α κ) : priv_btree_node α → Option κ → Nat
  | null, _ => 1
  | node _ _ _ _, none => 1
  | node l x _ r, some k =>
    if ops.compare_node_key x k > 0 then 1 + delete_node_depth ops l (some k)
    else if ops.compare_node_key x k < 0 then 1 + delete_node_depth ops r (some k)
    else
      match l, r with
      | null, _ => 1
      | node _ _ _ _, null => 1
      | node _ _ _ _, node rl rx rh rr =>
        match min_value_node (node rl rx rh rr) with
        | none => 1
        | some tmp => 1 + delete_node_depth ops (node rl rx rh rr) (ops.get_key_ptr tmp)

/-- Every call of the sequence succeeds: each `btree_insert` returns 0 and each
`btree_remove` returns a node. -/
def successful [DecidableEq α] (ops : btree_ops α κ) : btree α → List (call α κ) → Bool
  | _, [] => true
  | tree, call.insert node_ptr :: cs =>
    match btree_insert ops tree node_ptr with
    | some (tree1, rc) => decide (rc = 0) && successful ops tree1 cs
    | none => false
  | tree, call.remove key_ptr :: cs =>
    match btree_remove ops tree key_ptr with
    | some (tree1, some _) => successful ops tree1 cs
    | _ => false

/-- The calls of the example program: twelve inserts, then the removes of 354562934 and
127. -/
def program_calls : List (call data Int) :=
  scenario_calls ++ [call.remove (some 354562934), call.remove (some 127)]

/-- The node `t` is the tree `T` or lies somewhere below it. -/
def subtree_of (t : priv_btree_node α) : priv_btree_node α → Prop
  | null => t = null
  | node l x h r => t = node l x h r ∨ subtree_of t l ∨ subtree_of t r

instance subtree_of.instDecidable [DecidableEq α] (t : priv_btree_node α) :
    (T : priv_btree_node α) → Decidable (subtree_of t T)
  | null => inferInstanceAs (Decidable (t = null))
  | node l x h r =>
    have := subtree_of.instDecidable t l
    have := subtree_of.instDecidable t r
    inferInstanceAs (Decidable (t = node l x h r ∨ subtree_of t l ∨ subtree_of t r))

/-- A valid five-node tree: root 4 over the leaf 2 and the node 6 with leaves 5 and 7. -/
def five_tree : priv_btree_node data :=
  node (leaf 2) (elem_of 4) 3 (node (leaf 5) (elem_of 6) 2 (leaf 7))

/-- The nodes whose `btree_insert` returned 0 and that no later `btree_remove` has returned,
over a sequence of calls: `acc` holds them for the calls made so far; `none` when a call is
undefined. -/
def live_nodes [DecidableEq α] (ops : btree_ops α κ) :
    btree α → List (call α κ) → List α → Option (List α)
  | _, [], acc => some acc
  | tree, call.insert node_ptr :: cs, acc =>
    match btree_insert ops tree node_ptr with
    | none => none
    | some (tree1, rc) =>
      match node_ptr with
      | some e => live_nodes ops tree1 cs (if rc = 0 then e :: acc else acc)
      | none => live_nodes ops tree1 cs acc
  | tree, call.remove key_ptr :: cs, acc =>
    match btree_remove ops tree key_ptr with
    | none => none
    | some (tree1, some m) => live_nodes ops tree1 cs (acc.filter (fun x => decide (x ≠ m)))
    | some (tree1, none) => live_nodes ops tree1 cs acc

/-- Every `btree_remove` of the sequence is passed a key pointer that is not `NULL`. -/
def remove_keys_present : List (call α κ) → Bool
  | [] => true
  | call.remove none :: _ => false
  | _ :: cs => remove_keys_present cs

/-- Inserts of the nodes 2 and 1, then `btree_insert` of the node 2 again, which is linked and
has the node 1 as its child. -/
def lost_key_calls : List (call data Int) :=
  [insert_key 2, insert_key 1, insert_key 2]

/-- Insert of the node 1, then `btree_remove` with a `NULL` key pointer. -/
def null_remove_calls : List (call data Int) :=
  [insert_key 1, call.remove none]

/-! # Theorems -/

/-! ## Elementary facts -/

theorem r_rotate_inorder {t t1 : priv_btree_node α} (h : r_rotate t = some t1) :
    inorder t1 = inorder t := by
  unfold r_rotate at h
  split at h
  · simp only [Option.some.injEq] at h
    subst h
    simp [inorder, List.append_assoc]
  · simp at h

theorem l_rotate_inorder {t t1 : priv_btree_node α} (h : l_rotate t = some t1) :
    inorder t1 = inorder t := by
  unfold l_rotate at h
  split at h
  · simp only [Option.some.injEq] at h
    subst h
    simp [inorder, List.append_assoc]
  · simp at h

theorem balance_inorder {t t1 : priv_btree_node α} (h : balance t = some t1) :
    inorder t1 = inorder t := by
  unfold balance at h
  split at h
  · simp at h; subst h; rfl
  · rename_i l x hh r
    simp only at h
    split_ifs at h
    · exact r_rotate_inorder h
    · cases hl : l_rotate l with
      | none => simp [hl] at h
      | some l1 =>
        simp only [hl] at h
        rw [r_rotate_inorder h]
        simp [inorder, l_rotate_inorder hl]
    · exact l_rotate_inorder h
    · cases hr : r_rotate r with
      | none => simp [hr] at h
      | some r1 =>
        simp only [hr] at h
        rw [l_rotate_inorder h]
        simp [inorder, r_rotate_inorder hr]
    · simp at h; subst h; rfl

theorem delete_finish_inorder {t t1 : priv_btree_node α} (h : delete_finish t = some t1) :
    inorder t1 = inorder t := by
  cases t with
  | null => simp [delete_finish] at h; subst h; rfl
  | node l x hh r =>
    simp only [delete_finish] at h
    rw [balance_inorder h]
    simp [inorder]

theorem insert_rebalance_inorder {ops : btree_ops α κ} {l r t1 : priv_btree_node α} {x e : α}
    (h : insert_rebalance ops l x r e = some t1) :
    inorder t1 = inorder l ++ x :: inorder r := by
  unfold insert_rebalance at h
  simp only at h
  split_ifs at h with h1 h2
  · cases l with
    | null => simp at h
    | node ll lx lh lr =>
      simp only at h
      split_ifs at h
      · rw [r_rotate_inorder h]; simp [inorder]
      · cases hl : l_rotate (node ll lx lh lr) with
        | none => simp [hl] at h
        | some l1 =>
          simp only [hl] at h
          rw [r_rotate_inorder h]
          simp [inorder, l_rotate_inorder hl]
      · simp at h; subst h; simp [inorder]
  · cases r with
    | null => simp at h
    | node rl rx rh rr =>
      simp only at h
      split_ifs at h
      · rw [l_rotate_inorder h]; simp [inorder]
      · cases hr : r_rotate (node rl rx rh rr) with
        | none => simp [hr] at h
        | some r1 =>
          simp only [hr] at h
          rw [l_rotate_inorder h]
          simp [inorder, r_rotate_inorder hr]
      · simp at h; subst h; simp [inorder]
  · simp at h; subst h; simp [inorder]

theorem inorder_eq_nil {t : priv_btree_node α} : inorder t = [] ↔ t = null := by
  cases t <;> simp [inorder]

/-! ## Consequences of lawful callbacks -/

theorem Lawful.refl {ops : btree_ops α κ} (hl : Lawful ops) (a : α) :
    ops.compare_node a a = 0 := by
  have h := hl.antisymm a a
  omega

theorem Lawful.symm_zero {ops : btree_ops α κ} (hl : Lawful ops) {a b : α}
    (h : ops.compare_node a b = 0) : ops.compare_node b a = 0 := by
  have h1 := hl.antisymm a b
  have h2 := hl.antisymm b a
  omega

theorem Lawful.trans_eq {ops : btree_ops α κ} (hl : Lawful ops) {a b c : α}
    (h1 : ops.compare_node a b < 0) (h2 : ops.compare_node b c = 0) :
    ops.compare_node a c < 0 := by
  by_contra hc
  have h3 : ops.compare_node c b = 0 := hl.symm_zero h2
  rcases lt_trichotomy (ops.compare_node a c) 0 with h | h | h
  · exact hc h
  · have h4 := hl.eq_trans c a b (hl.symm_zero h) h1
    omega
  · have h5 : ops.compare_node c a < 0 := (hl.antisymm c a).mpr h
    have h6 := hl.trans c a b h5 h1
    omega

theorem Lawful.key_lt {ops : btree_ops α κ} (hl : Lawful ops) {e a : α} {k : κ}
    (hk : ops.get_key_ptr e = some k) :
    (ops.compare_node_key a k < 0 ↔ ops.compare_node a e < 0) ∧
    (ops.compare_node_key a k > 0 ↔ ops.compare_node a e > 0) ∧
    (ops.compare_node_key a k = 0 ↔ ops.compare_node a e = 0) := by
  have hs := hl.key_self e k hk
  have h1 : ops.compare_node_key a k < 0 → ops.compare_node a e < 0 := fun h =>
    hl.key_mono a e k (by omega) (by omega) (Or.inl h)
  have h2 : ops.compare_node_key a k > 0 → ops.compare_node a e > 0 := fun h =>
    (hl.antisymm e a).mp (hl.key_mono e a k (by omega) (by omega) (Or.inr h))
  have h3 : ops.compare_node_key a k = 0 → ops.compare_node a e = 0 := fun h =>
    hl.key_eq a e k h hs
  have hsign : (ops.compare_node_key a k < 0 ∧ ops.compare_node a e < 0) ∨
      (ops.compare_node_key a k = 0 ∧ ops.compare_node a e = 0) ∨
      (ops.compare_node_key a k > 0 ∧ ops.compare_node a e > 0) := by
    rcases lt_trichotomy (ops.compare_node_key a k) 0 with h4 | h4 | h4
    · exact Or.inl ⟨h4, h1 h4⟩
    · exact Or.inr (Or.inl ⟨h4, h3 h4⟩)
    · exact Or.inr (Or.inr ⟨h4, h2 h4⟩)
  omega

/-! ## The order invariant, node by node -/

theorem ordered_node {ops : btree_ops α κ} {l r : priv_btree_node α} {x : α} {h : Int} :
    Ordered ops (node l x h r) ↔
      Ordered ops l ∧ Ordered ops r ∧ (∀ a ∈ inorder l, ops.compare_node a x < 0) ∧
        (∀ b ∈ inorder r, ops.compare_node x b < 0) ∧
        (∀ a ∈ inorder l, ∀ b ∈ inorder r, ops.compare_node a b < 0) := by
  simp only [Ordered, inorder, List.pairwise_append, List.pairwise_cons, List.mem_cons]
  constructor
  · rintro ⟨h1, ⟨h2, h3⟩, h4⟩
    exact ⟨h1, h3, fun a ha => h4 a ha x (Or.inl rfl), h2,
      fun a ha b hb => h4 a ha b (Or.inr hb)⟩
  · rintro ⟨h1, h2, h3, h4, h5⟩
    refine ⟨h1, ⟨h4, h2⟩, ?_⟩
    intro a ha b hb
    rcases hb with hb | hb
    · subst hb; exact h3 a ha
    · exact h5 a ha b hb

theorem ordered_null {ops : btree_ops α κ} : Ordered ops (null : priv_btree_node α) := by
  simp [Ordered, inorder]

theorem ordered_of_inorder_eq {ops : btree_ops α κ} {t t1 : priv_btree_node α}
    (h : inorder t1 = inorder t) (ho : Ordered ops t) : Ordered ops t1 := by
  unfold Ordered at *
  rw [h]; exact ho

theorem insert_inorder {ops : btree_ops α κ} (hl : Lawful ops) (e : α) :
    ∀ (t t1 : priv_btree_node α), Ordered ops t → insert ops t e = some t1 →
      (t1 = null ∧ ∃ x ∈ inorder t, ops.compare_node e x = 0) ∨
      (t1 ≠ null ∧ InsertedAt ops e (inorder t) (inorder t1)) := by
  intro t
  induction t with
  | null =>
    intro t1 _ h
    simp only [insert, Option.some.injEq] at h
    subst h
    exact Or.inr ⟨by simp, [], [], by simp [inorder], by simp [inorder], by simp, by simp⟩
  | node l x hh r ihl ihr =>
    intro t1 ho h
    obtain ⟨hol, hor, hlx, hxr, _⟩ := ordered_node.mp ho
    simp only [insert] at h
    split_ifs at h with h1 h2
    · cases hi : insert ops l e with
      | none => simp [hi] at h
      | some l1 =>
        rcases ihl l1 hol hi with ⟨hn, y, hy, hy0⟩ | ⟨hn, L1, L2, e1, e2, hL1, hL2⟩
        · subst hn
          simp only [hi, Option.some.injEq] at h
          exact Or.inl ⟨h.symm, y, by simp [inorder, hy], hy0⟩
        · cases l1 with
          | null => exact absurd rfl hn
          | node a y hy b =>
            simp only [hi] at h
            have hio := insert_rebalance_inorder h
            refine Or.inr ⟨?_, L1, L2 ++ x :: inorder r, ?_, ?_, hL1, ?_⟩
            · intro hc; rw [hc, e2] at hio; simp [inorder] at hio
            · simp [inorder, e1]
            · rw [hio, e2]; simp
            · intro b hb
              simp only [List.mem_append, List.mem_cons] at hb
              rcases hb with hb | hb | hb
              · exact hL2 b hb
              · subst hb; exact h1
              · exact hl.trans _ _ _ h1 (hxr b hb)
    · cases hi : insert ops r e with
      | none => simp [hi] at h
      | some r1 =>
        rcases ihr r1 hor hi with ⟨hn, y, hy, hy0⟩ | ⟨hn, L1, L2, e1, e2, hL1, hL2⟩
        · subst hn
          simp only [hi, Option.some.injEq] at h
          exact Or.inl ⟨h.symm, y, by simp [inorder, hy], hy0⟩
        · cases r1 with
          | null => exact absurd rfl hn
          | node a y hy b =>
            simp only [hi] at h
            have hio := insert_rebalance_inorder h
            refine Or.inr ⟨?_, inorder l ++ x :: L1, L2, ?_, ?_, ?_, hL2⟩
            · intro hc; rw [hc, e2] at hio; simp [inorder] at hio
            · simp [inorder, e1]
            · rw [hio, e2]; simp
            · intro a ha
              simp only [List.mem_append, List.mem_cons] at ha
              have hxe : ops.compare_node x e < 0 := (hl.antisymm x e).mpr h2
              rcases ha with ha | ha | ha
              · exact hl.trans _ _ _ (hlx a ha) hxe
              · subst ha; exact hxe
              · exact hL1 a ha
    · simp only [Option.some.injEq] at h
      exact Or.inl ⟨h.symm, x, by simp [inorder], by omega⟩

theorem InsertedAt.ordered {ops : btree_ops α κ} {e : α} {t t1 : priv_btree_node α}
    (hi : InsertedAt ops e (inorder t) (inorder t1)) (ho : Ordered ops t) : Ordered ops t1 := by
  obtain ⟨L1, L2, e1, e2, hL1, hL2⟩ := hi
  unfold Ordered at *
  rw [e1] at ho
  rw [e2]
  rw [List.pairwise_append] at ho ⊢
  refine ⟨ho.1, ?_, ?_⟩
  · rw [List.pairwise_cons]; exact ⟨hL2, ho.2.1⟩
  · intro a ha b hb
    rcases List.mem_cons.mp hb with hb | hb
    · subst hb; exact hL1 a ha
    · exact ho.2.2 a ha b hb

theorem height_null : height (null : priv_btree_node α) = 0 := rfl

theorem height_node (l r : priv_btree_node α) (x : α) (h : Int) : height (node l x h r) = h := rfl

theorem Avl.height_nonneg : ∀ {t : priv_btree_node α}, Avl t → 0 ≤ height t
  | null, _ => by simp [height_null]
  | node l _ h r, ha => by
    obtain ⟨h1, h2, h3, _, _⟩ := ha
    have := Avl.height_nonneg h1
    have := Avl.height_nonneg h2
    simp only [height_node, height_null, update_height] at *
    omega

theorem Avl.height_pos {l r : priv_btree_node α} {x : α} {h : Int} (ha : Avl (node l x h r)) :
    1 ≤ h := by
  obtain ⟨h1, h2, h3, _, _⟩ := ha
  have := Avl.height_nonneg h1
  have := Avl.height_nonneg h2
  simp only [update_height] at *
  omega

theorem Avl.eq_null_of_height {t : priv_btree_node α} (ha : Avl t) (h : height t ≤ 0) :
    t = null := by
  cases t with
  | null => rfl
  | node l x hh r =>
    have := ha.height_pos
    simp only [height_node, height_null] at h
    omega

theorem insert_rebalance_left (ops : btree_ops α κ) {l1 r : priv_btree_node α} (x e : α)
    (hal : Avl l1) (har : Avl r)
    (hlo : height r - 1 ≤ height l1) (hhi : height l1 ≤ height r + 2)
    (hg : height l1 = height r + 2 → ∃ a lx h1 b, l1 = node a lx h1 b ∧
      ((ops.compare_node e lx < 0 ∧ height a = height b + 1) ∨
        (ops.compare_node e lx > 0 ∧ height b = height a + 1))) :
    ∃ t1, insert_rebalance ops l1 x r e = some t1 ∧ Avl t1 ∧
      (height l1 - height r ≤ 1 → t1 = node l1 x (update_height l1 r) r) ∧
      (height l1 = height r + 2 → height t1 = height r + 2) := by
  unfold insert_rebalance
  simp only [get_balance]
  by_cases hb : height l1 - height r > 1
  · obtain ⟨a, lx, h1, b, rfl, hside⟩ := hg (by omega)
    simp only [hb, if_true]
    obtain ⟨haa, hab, hh1, hb1, hb2⟩ := hal
    have hna := haa.height_nonneg
    have hnb := hab.height_nonneg
    have hnr := har.height_nonneg
    simp only [height_node, height_null, update_height] at *
    rcases hside with ⟨hc, hs⟩ | ⟨hc, hs⟩
    · simp only [hc, if_true, r_rotate]
      refine ⟨_, rfl, ?_, ?_, ?_⟩
      · simp only [Avl, height_node, height_null, update_height]
        refine ⟨haa, ⟨hab, har, trivial, ?_, ?_⟩, trivial, ?_, ?_⟩ <;> omega
      · intro; omega
      · intro; simp only [update_height, height_node, height_null]; omega
    · have hc1 : ¬ ops.compare_node e lx < 0 := by omega
      simp only [hc1, if_false, hc, if_true]
      cases b with
      | null => simp only [height_node, height_null] at hs; omega
      | node z y hy c =>
        obtain ⟨haz, hac, hhy, hy1, hy2⟩ := hab
        have hnz := haz.height_nonneg
        have hnc := hac.height_nonneg
        simp only [height_node, height_null, update_height] at *
        simp only [l_rotate, r_rotate]
        refine ⟨_, rfl, ?_, ?_, ?_⟩
        · simp only [Avl, height_node, height_null, update_height]
          refine ⟨⟨haa, haz, trivial, ?_, ?_⟩, ⟨hac, har, trivial, ?_, ?_⟩, trivial, ?_, ?_⟩ <;>
            omega
        · intro; omega
        · intro; simp only [update_height, height_node, height_null]; omega
  · have hb2 : ¬ height l1 - height r < -1 := by omega
    simp only [hb, hb2, if_false]
    refine ⟨_, rfl, ?_, fun _ => rfl, fun h => by omega⟩
    simp only [Avl]
    exact ⟨hal, har, trivial, by omega, by omega⟩

theorem insert_rebalance_right (ops : btree_ops α κ) {l r1 : priv_btree_node α} (x e : α)
    (hal : Avl l) (har : Avl r1)
    (hlo : height l - 1 ≤ height r1) (hhi : height r1 ≤ height l + 2)
    (hg : height r1 = height l + 2 → ∃ a rx h1 b, r1 = node a rx h1 b ∧
      ((ops.compare_node e rx < 0 ∧ height a = height b + 1) ∨
        (ops.compare_node e rx > 0 ∧ height b = height a + 1))) :
    ∃ t1, insert_rebalance ops l x r1 e = some t1 ∧ Avl t1 ∧
      (height r1 - height l ≤ 1 → t1 = node l x (update_height l r1) r1) ∧
      (height r1 = height l + 2 → height t1 = height l + 2) := by
  unfold insert_rebalance
  simp only [get_balance]
  by_cases hb : height l - height r1 < -1
  · obtain ⟨a, rx, h1, b, rfl, hside⟩ := hg (by omega)
    have hb0 : ¬ height l - height (node a rx h1 b) > 1 := by omega
    simp only [hb0, hb, if_true, if_false]
    obtain ⟨haa, hab, hh1, hb1, hb2⟩ := har
    have hna := haa.height_nonneg
    have hnb := hab.height_nonneg
    have hnl := hal.height_nonneg
    simp only [height_node, height_null, update_height] at *
    rcases hside with ⟨hc, hs⟩ | ⟨hc, hs⟩
    · have hc1 : ¬ ops.compare_node e rx > 0 := by omega
      simp only [hc1, if_false, hc, if_true]
      cases a with
      | null => simp only [height_node, height_null] at hs; omega
      | node z y hy c =>
        obtain ⟨haz, hac, hhy, hy1, hy2⟩ := haa
        have hnz := haz.height_nonneg
        have hnc := hac.height_nonneg
        simp only [height_node, height_null, update_height] at *
        simp only [l_rotate, r_rotate]
        refine ⟨_, rfl, ?_, ?_, ?_⟩
        · simp only [Avl, height_node, height_null, update_height]
          refine ⟨⟨hal, haz, trivial, ?_, ?_⟩, ⟨hac, hab, trivial, ?_, ?_⟩, trivial, ?_, ?_⟩ <;>
            omega
        · intro; omega
        · intro; simp only [update_height, height_node, height_null]; omega
    · simp only [hc, if_true, l_rotate]
      refine ⟨_, rfl, ?_, ?_, ?_⟩
      · simp only [Avl, height_node, height_null, update_height]
        refine ⟨⟨hal, haa, trivial, ?_, ?_⟩, hab, trivial, ?_, ?_⟩ <;> omega
      · intro; omega
      · intro; simp only [update_height, height_node, height_null]; omega
  · have hb2 : ¬ height l - height r1 > 1 := by omega
    simp only [hb, hb2, if_false]
    refine ⟨_, rfl, ?_, fun _ => rfl, fun h => by omega⟩
    simp only [Avl]
    exact ⟨hal, har, trivial, by omega, by omega⟩

theorem insert_avl (ops : btree_ops α κ) (e : α) :
    ∀ t : priv_btree_node α, Avl t →
      ∃ t1, insert ops t e = some t1 ∧ (t1 = null ∨ (Avl t1 ∧ Grown ops e t t1)) := by
  intro t
  induction t with
  | null =>
    intro _
    refine ⟨node null e 1 null, rfl, Or.inr ⟨?_, Or.inr ⟨?_, Or.inl rfl⟩⟩⟩
    · simp [Avl, update_height, height_null]
    · simp [height_node, height_null]
  | node l x h r ihl ihr =>
    intro ha
    obtain ⟨hal, har, hh, hb1, hb2⟩ := ha
    have hnl := hal.height_nonneg
    have hnr := har.height_nonneg
    simp only [insert]
    by_cases hc : ops.compare_node e x < 0
    · simp only [hc, if_true]
      obtain ⟨l1, hi, hl1⟩ := ihl hal
      rw [hi]
      cases l1 with
      | null => exact ⟨null, rfl, Or.inl rfl⟩
      | node a y hy b =>
        simp only
        rcases hl1 with hl1 | ⟨hal1, hg⟩
        · exact absurd hl1 (by simp)
        · obtain ⟨t1, ht1, hat1, hsame, hrot⟩ :=
            insert_rebalance_left ops x e hal1 har
              (by rcases hg with hg | ⟨hg, _⟩ <;> omega)
              (by rcases hg with hg | ⟨hg, _⟩ <;> omega)
              (by
                intro h2
                rcases hg with hg | ⟨hg, hg2⟩
                · omega
                · rcases hg2 with hg2 | ⟨l0, x0, h0, r0, a0, h1, b0, e1, e2, hside⟩
                  · subst hg2; simp only [height_node, height_null] at hg h2; omega
                  · exact ⟨a0, x0, h1, b0, e2, hside⟩)
          refine ⟨t1, ht1, Or.inr ⟨hat1, ?_⟩⟩
          by_cases hd : height (node a y hy b) - height r ≤ 1
          · have ht := hsame hd
            subst ht
            rcases hg with hg | ⟨hg, _⟩
            · left; simp only [height_node, height_null, update_height] at *; omega
            · by_cases hlr : height l < height r
              · left; simp only [height_node, height_null, update_height] at *; omega
              · right
                refine ⟨by simp only [height_node, height_null, update_height] at *; omega, Or.inr
                  ⟨l, x, h, r, node a y hy b, _, r, rfl, rfl, Or.inl ⟨hc, ?_⟩⟩⟩
                simp only [height_node, height_null, update_height] at *; omega
          · left
            have := hrot (by rcases hg with hg | ⟨hg, _⟩ <;> omega)
            rcases hg with hg | ⟨hg, _⟩ <;> simp only [height_node, height_null, update_height] at * <;> omega
    · simp only [hc, if_false]
      by_cases hc2 : ops.compare_node e x > 0
      · simp only [hc2, if_true]
        obtain ⟨r1, hi, hr1⟩ := ihr har
        rw [hi]
        cases r1 with
        | null => exact ⟨null, rfl, Or.inl rfl⟩
        | node a y hy b =>
          simp only
          rcases hr1 with hr1 | ⟨har1, hg⟩
          · exact absurd hr1 (by simp)
          · obtain ⟨t1, ht1, hat1, hsame, hrot⟩ :=
              insert_rebalance_right ops x e hal har1
                (by rcases hg with hg | ⟨hg, _⟩ <;> omega)
                (by rcases hg with hg | ⟨hg, _⟩ <;> omega)
                (by
                  intro h2
                  rcases hg with hg | ⟨hg, hg2⟩
                  · omega
                  · rcases hg2 with hg2 | ⟨l0, x0, h0, r0, a0, h1, b0, e1, e2, hside⟩
                    · subst hg2; simp only [height_node, height_null] at hg h2; omega
                    · exact ⟨a0, x0, h1, b0, e2, hside⟩)
            refine ⟨t1, ht1, Or.inr ⟨hat1, ?_⟩⟩
            by_cases hd : height (node a y hy b) - height l ≤ 1
            · have ht := hsame hd
              subst ht
              rcases hg with hg | ⟨hg, _⟩
              · left; simp only [height_node, height_null, update_height] at *; omega
              · by_cases hlr : height r < height l
                · left; simp only [height_node, height_null, update_height] at *; omega
                · right
                  refine ⟨by simp only [height_node, height_null, update_height] at *; omega, Or.inr
                    ⟨l, x, h, r, l, _, node a y hy b, rfl, rfl, Or.inr ⟨hc2, ?_⟩⟩⟩
                  simp only [height_node, height_null, update_height] at *; omega
            · left
              have := hrot (by rcases hg with hg | ⟨hg, _⟩ <;> omega)
              rcases hg with hg | ⟨hg, _⟩ <;> simp only [height_node, height_null, update_height] at * <;> omega
      · simp only [hc2, if_false]
        exact ⟨null, rfl, Or.inl rfl⟩

theorem balance_avl {l r : priv_btree_node α} (x : α) (hal : Avl l) (har : Avl r)
    (h1 : height l - height r ≤ 2) (h2 : -2 ≤ height l - height r) :
    ∃ t1, balance (node l x (update_height l r) r) = some t1 ∧ Avl t1 ∧
      max (height l) (height r) ≤ height t1 ∧ height t1 ≤ 1 + max (height l) (height r) ∧
      (height l - height r ≤ 1 → -1 ≤ height l - height r →
        t1 = node l x (update_height l r) r) := by
  have hnl := hal.height_nonneg
  have hnr := har.height_nonneg
  by_cases hb : height l - height r > 1
  · cases l with
    | null => simp only [height_null] at hb; omega
    | node a lx lh b =>
      obtain ⟨haa, hab, hlh, hl1, hl2⟩ := hal
      have hna := haa.height_nonneg
      have hnb := hab.height_nonneg
      simp only [height_node, update_height] at *
      by_cases hg : height a - height b ≥ 0
      · simp only [balance, get_balance, height_node, hb, hg, and_self, if_true, r_rotate]
        refine ⟨_, rfl, ?_, ?_, ?_, ?_⟩
        · simp only [Avl, height_node, update_height]
          refine ⟨haa, ⟨hab, har, trivial, ?_, ?_⟩, trivial, ?_, ?_⟩ <;> omega
        · simp only [height_node, update_height]; omega
        · simp only [height_node, update_height]; omega
        · intro h3; omega
      · have hg2 : height a - height b < 0 := by omega
        cases b with
        | null => simp only [height_null] at hg2; omega
        | node z y hy c =>
          obtain ⟨haz, hac, hhy, hy1, hy2⟩ := hab
          have hnz := haz.height_nonneg
          have hnc := hac.height_nonneg
          simp only [height_node, update_height] at *
          simp only [balance, get_balance, height_node, hb, hg, hg2, and_self, and_false,
            if_true, if_false, l_rotate, r_rotate]
          refine ⟨_, rfl, ?_, ?_, ?_, ?_⟩
          · simp only [Avl, height_node, update_height]
            refine ⟨⟨haa, haz, trivial, ?_, ?_⟩, ⟨hac, har, trivial, ?_, ?_⟩, trivial, ?_, ?_⟩ <;>
              omega
          · simp only [height_node, update_height]; omega
          · simp only [height_node, update_height]; omega
          · intro h3; omega
  · by_cases hb2 : height l - height r < -1
    · cases r with
      | null => simp only [height_null] at hb2; omega
      | node a rx rh b =>
        obtain ⟨haa, hab, hrh, hr1, hr2⟩ := har
        have hna := haa.height_nonneg
        have hnb := hab.height_nonneg
        simp only [height_node, update_height] at *
        by_cases hg : height a - height b ≤ 0
        · simp only [balance, get_balance, height_node, hb, hb2, hg, and_self, false_and,
            if_true, if_false, l_rotate]
          refine ⟨_, rfl, ?_, ?_, ?_, ?_⟩
          · simp only [Avl, height_node, update_height]
            refine ⟨⟨hal, haa, trivial, ?_, ?_⟩, hab, trivial, ?_, ?_⟩ <;> omega
          · simp only [height_node, update_height]; omega
          · simp only [height_node, update_height]; omega
          · intro h3 h4; omega
        · have hg2 : height a - height b > 0 := by omega
          cases a with
          | null => simp only [height_null] at hg2; omega
          | node z y hy c =>
            obtain ⟨haz, hac, hhy, hy1, hy2⟩ := haa
            have hnz := haz.height_nonneg
            have hnc := hac.height_nonneg
            simp only [height_node, update_height] at *
            simp only [balance, get_balance, height_node, hb, hb2, hg, hg2, and_self, and_false,
              false_and, if_true, if_false, l_rotate, r_rotate]
            refine ⟨_, rfl, ?_, ?_, ?_, ?_⟩
            · simp only [Avl, height_node, update_height]
              refine ⟨⟨hal, haz, trivial, ?_, ?_⟩, ⟨hac, hab, trivial, ?_, ?_⟩, trivial, ?_, ?_⟩ <;>
                omega
            · simp only [height_node, update_height]; omega
            · simp only [height_node, update_height]; omega
            · intro h3 h4; omega
    · simp only [balance, get_balance, hb, hb2, false_and, if_false]
      refine ⟨_, rfl, ?_, ?_, ?_, fun _ _ => rfl⟩
      · simp only [Avl]
        exact ⟨hal, har, trivial, by omega, by omega⟩
      · simp only [height_node, update_height]; omega
      · simp only [height_node, update_height]; omega

theorem balance_of_avl {t : priv_btree_node α} (ha : Avl t) : balance t = some t := by
  cases t with
  | null => rfl
  | node l x h r =>
    obtain ⟨hal, har, hh, h1, h2⟩ := ha
    obtain ⟨t1, e1, _, _, _, e2⟩ := balance_avl x hal har (by omega) (by omega)
    rw [hh, e1, e2 h1 h2]

theorem delete_finish_of_avl {t : priv_btree_node α} (ha : Avl t) : delete_finish t = some t := by
  cases t with
  | null => rfl
  | node l x h r =>
    have hh : h = update_height l r := ha.2.2.1
    simp only [delete_finish]
    rw [← hh]
    exact balance_of_avl ha

theorem delete_node_node (ops : btree_ops α κ) (l r : priv_btree_node α) (x : α) (h : Int)
    (k : κ) :
    delete_node ops (node l x h r) (some k) =
      if ops.compare_node_key x k > 0 then
        match delete_node ops l (some k) with
        | none => none
        | some (l1, rm) => (delete_finish (node l1 x h r)).map (fun t => (t, rm))
      else if ops.compare_node_key x k < 0 then
        match delete_node ops r (some k) with
        | none => none
        | some (r1, rm) => (delete_finish (node l x h r1)).map (fun t => (t, rm))
      else
        match l, r with
        | null, _ => (delete_finish r).map (fun t => (t, some x))
        | node ll lx lh lr, null => (delete_finish (node ll lx lh lr)).map (fun t => (t, some x))
        | node ll lx lh lr, node rl rx rh rr =>
          match min_value_node (node rl rx rh rr) with
          | none => none
          | some tmp =>
            match delete_node ops (node rl rx rh rr) (ops.get_key_ptr tmp) with
            | none => none
            | some (_, none) => some (null, some x)
            | some (r1, some removed) =>
              (delete_finish (node (node ll lx lh lr) removed h r1)).map (fun t => (t, some x)) := by
  cases l <;> cases r <;> rfl

theorem delete_node_absent (ops : btree_ops α κ) (k : κ) :
    ∀ t : priv_btree_node α, Avl t → (∀ x ∈ inorder t, ops.compare_node_key x k ≠ 0) →
      delete_node ops t (some k) = some (t, none) := by
  intro t
  induction t with
  | null => intro _ _; rfl
  | node l x h r ihl ihr =>
    intro ha hno
    have hal : Avl l := ha.1
    have har : Avl r := ha.2.1
    have hx : ops.compare_node_key x k ≠ 0 := hno x (by simp [inorder])
    have hl := ihl hal (fun y hy => hno y (by simp [inorder, hy]))
    have hr := ihr har (fun y hy => hno y (by simp [inorder, hy]))
    rw [delete_node_node]
    by_cases hc : ops.compare_node_key x k > 0
    · simp only [hc, if_true, hl, delete_finish_of_avl ha, Option.map_some']
    · have hc2 : ops.compare_node_key x k < 0 := by omega
      simp only [hc, hc2, if_true, if_false, hr, delete_finish_of_avl ha, Option.map_some']

theorem min_value_node_spec :
    ∀ (l r : priv_btree_node α) (x : α) (h : Int),
      ∃ s rest, min_value_node (node l x h r) = some s ∧ inorder (node l x h r) = s :: rest := by
  intro l
  induction l with
  | null => intro r x h; exact ⟨x, inorder r, rfl, by simp [inorder]⟩
  | node ll lx lh lr ihl _ =>
    intro r x h
    obtain ⟨s, rest, h1, h2⟩ := ihl lr lx lh
    refine ⟨s, rest ++ x :: inorder r, ?_, ?_⟩
    · simp only [min_value_node]; exact h1
    · show inorder (node ll lx lh lr) ++ x :: inorder r = _
      rw [h2]; simp

theorem delete_node_inorder {ops : btree_ops α κ} (hl : Lawful ops) :
    ∀ (t t1 : priv_btree_node α) (k : κ) (rm : Option α), Ordered ops t → Keyed ops t →
      delete_node ops t (some k) = some (t1, rm) →
      (rm = none ∧ (∀ x ∈ inorder t, ops.compare_node_key x k ≠ 0) ∧ inorder t1 = inorder t) ∨
      (∃ m, rm = some m ∧ ops.compare_node_key m k = 0 ∧
        RemovedAt m (inorder t) (inorder t1)) := by
  intro t
  induction t with
  | null =>
    intro t1 k rm _ _ h
    simp only [delete_node, Option.some.injEq, Prod.mk.injEq] at h
    obtain ⟨h1, h2⟩ := h
    subst h1 h2
    exact Or.inl ⟨rfl, by simp [inorder], rfl⟩
  | node l x hh r ihl ihr =>
    intro t1 k rm ho hk h
    obtain ⟨hol, hor, hlx, hxr, hlr⟩ := ordered_node.mp ho
    have hkl : Keyed ops l := fun y hy => hk y (by simp [inorder, hy])
    have hkr : Keyed ops r := fun y hy => hk y (by simp [inorder, hy])
    rw [delete_node_node] at h
    split_ifs at h with hc hc2
    · cases hd : delete_node ops l (some k) with
      | none => simp [hd] at h
      | some p =>
        obtain ⟨l1, rm0⟩ := p
        simp only [hd, Option.map_eq_some', Prod.mk.injEq] at h
        obtain ⟨t2, hf, e1, e2⟩ := h
        subst e1 e2
        have hio := delete_finish_inorder hf
        rcases ihl l1 k rm0 hol hkl hd with ⟨hn, hno, hi⟩ | ⟨m, hm, hm0, L1, L2, e1, e2⟩
        · refine Or.inl ⟨hn, ?_, by rw [hio]; simp [inorder, hi]⟩
          intro y hy
          simp only [inorder, List.mem_append, List.mem_cons] at hy
          rcases hy with hy | hy | hy
          · exact hno y hy
          · subst hy; omega
          · intro h0
            have h3 := hl.key_mono y x k (by omega) (by omega) (Or.inr hc)
            have h4 := (hl.antisymm x y).mp (hxr y hy)
            omega
        · refine Or.inr ⟨m, hm, hm0, L1, L2 ++ x :: inorder r, ?_, ?_⟩
          · simp [inorder, e1]
          · rw [hio]; simp [inorder, e2]
    · cases hd : delete_node ops r (some k) with
      | none => simp [hd] at h
      | some p =>
        obtain ⟨r1, rm0⟩ := p
        simp only [hd, Option.map_eq_some', Prod.mk.injEq] at h
        obtain ⟨t2, hf, e1, e2⟩ := h
        subst e1 e2
        have hio := delete_finish_inorder hf
        rcases ihr r1 k rm0 hor hkr hd with ⟨hn, hno, hi⟩ | ⟨m, hm, hm0, L1, L2, e1, e2⟩
        · refine Or.inl ⟨hn, ?_, by rw [hio]; simp [inorder, hi]⟩
          intro y hy
          simp only [inorder, List.mem_append, List.mem_cons] at hy
          rcases hy with hy | hy | hy
          · intro h0
            have h3 := hl.key_mono x y k (by omega) (by omega) (Or.inl hc2)
            have h4 := (hl.antisymm y x).mp (hlx y hy)
            omega
          · subst hy; omega
          · exact hno y hy
        · refine Or.inr ⟨m, hm, hm0, inorder l ++ x :: L1, L2, ?_, ?_⟩
          · simp [inorder, e1]
          · rw [hio]; simp [inorder, e2]
    · have hx0 : ops.compare_node_key x k = 0 := by omega
      cases l with
      | null =>
        simp only [Option.map_eq_some', Prod.mk.injEq] at h
        obtain ⟨t2, hf, e1, e2⟩ := h
        subst e1 e2
        refine Or.inr ⟨x, rfl, hx0, [], inorder r, by simp [inorder], ?_⟩
        rw [delete_finish_inorder hf]; simp
      | node ll lx lh lr =>
        cases r with
        | null =>
          simp only [Option.map_eq_some', Prod.mk.injEq] at h
          obtain ⟨t2, hf, e1, e2⟩ := h
          subst e1 e2
          refine Or.inr ⟨x, rfl, hx0, inorder (node ll lx lh lr), [], by simp [inorder], ?_⟩
          rw [delete_finish_inorder hf]; simp
        | node rl rx rh rr =>
          obtain ⟨s, rest, hs1, hs2⟩ := min_value_node_spec rl rr rx rh
          have hsm : s ∈ inorder (node rl rx rh rr) := by rw [hs2]; simp
          obtain ⟨ks, hks⟩ := Option.isSome_iff_exists.mp (hkr s hsm)
          simp only [hs1, hks] at h
          cases hd : delete_node ops (node rl rx rh rr) (some ks) with
          | none => simp [hd] at h
          | some p =>
            obtain ⟨r1, removed⟩ := p
            rcases ihr r1 ks removed hor hkr hd with ⟨_, hno, _⟩ | ⟨m, hm, hm0, L1, L2, e1, e2⟩
            · exact absurd (hl.key_self s ks hks) (hno s hsm)
            · subst hm
              simp only [hd, Option.map_eq_some', Prod.mk.injEq] at h
              obtain ⟨t2, hf, e3, e4⟩ := h
              subst e3 e4
              have hms : L1 = [] ∧ m = s ∧ L2 = rest := by
                cases L1 with
                | nil =>
                  rw [hs2] at e1
                  simp only [List.nil_append, List.cons.injEq] at e1
                  exact ⟨rfl, e1.1.symm, e1.2.symm⟩
                | cons a L1 =>
                  exfalso
                  rw [hs2] at e1
                  simp only [List.cons_append, List.cons.injEq] at e1
                  obtain ⟨ea, er⟩ := e1
                  subst ea
                  have hor2 := hor
                  unfold Ordered at hor2
                  rw [hs2, er, List.pairwise_cons] at hor2
                  have h5 := hor2.1 m (by simp)
                  have h6 := hl.key_eq s m ks (hl.key_self s ks hks) hm0
                  omega
              obtain ⟨e5, e6, e7⟩ := hms
              subst e5 e6 e7
              refine Or.inr ⟨x, rfl, hx0, inorder (node ll lx lh lr), inorder (node rl rx rh rr),
                by simp [inorder], ?_⟩
              rw [delete_finish_inorder hf]
              simp only [List.nil_append] at e2
              show inorder (node ll lx lh lr) ++ m :: inorder r1 = _
              rw [e2, hs2]

theorem delete_node_avl {ops : btree_ops α κ} (hl : Lawful ops) (k : κ) :
    ∀ t : priv_btree_node α, Avl t → Ordered ops t → Keyed ops t →
      ∃ t1 rm, delete_node ops t (some k) = some (t1, rm) ∧ Avl t1 ∧
        height t - 1 ≤ height t1 ∧ height t1 ≤ height t := by
  intro t
  induction t generalizing k with
  | null => intro _ _ _; exact ⟨null, none, rfl, trivial, by simp [height_null], le_refl _⟩
  | node l x h r ihl ihr =>
    intro ha ho hk
    obtain ⟨hal, har, hh, hb1, hb2⟩ := ha
    obtain ⟨hol, hor, -, -, -⟩ := ordered_node.mp ho
    have hkl : Keyed ops l := fun y hy => hk y (by simp [inorder, hy])
    have hkr : Keyed ops r := fun y hy => hk y (by simp [inorder, hy])
    have hnl := hal.height_nonneg
    have hnr := har.height_nonneg
    rw [delete_node_node]
    by_cases hc : ops.compare_node_key x k > 0
    · obtain ⟨l1, rm, hd, hal1, hlo, hhi⟩ := ihl k hal hol hkl
      obtain ⟨t1, hbal, hat1, h1, h2, h3⟩ := balance_avl x hal1 har (by omega) (by omega)
      refine ⟨t1, rm, ?_, hat1, ?_, ?_⟩
      · simp only [hc, if_true, hd, delete_finish, hbal, Option.map_some']
      · by_cases h4 : -1 ≤ height l1 - height r
        · have := h3 (by omega) h4
          subst this
          simp only [height_node, update_height] at *; omega
        · simp only [height_node, update_height] at *; omega
      · simp only [height_node, update_height] at *; omega
    · by_cases hc2 : ops.compare_node_key x k < 0
      · obtain ⟨r1, rm, hd, har1, hlo, hhi⟩ := ihr k har hor hkr
        obtain ⟨t1, hbal, hat1, h1, h2, h3⟩ := balance_avl x hal har1 (by omega) (by omega)
        refine ⟨t1, rm, ?_, hat1, ?_, ?_⟩
        · simp only [hc, hc2, if_true, if_false, hd, delete_finish, hbal, Option.map_some']
        · by_cases h4 : height l - height r1 ≤ 1
          · have := h3 h4 (by omega)
            subst this
            simp only [height_node, update_height] at *; omega
          · simp only [height_node, update_height] at *; omega
        · simp only [height_node, update_height] at *; omega
      · simp only [hc, hc2, if_false]
        cases l with
        | null =>
          refine ⟨r, some x, ?_, har, ?_, ?_⟩
          · simp only [delete_finish_of_avl har, Option.map_some']
          · simp only [height_node, height_null, update_height] at *; omega
          · simp only [height_node, height_null, update_height] at *; omega
        | node ll lx lh lr =>
          cases r with
          | null =>
            refine ⟨node ll lx lh lr, some x, ?_, hal, ?_, ?_⟩
            · simp only [delete_finish_of_avl hal, Option.map_some']
            · simp only [height_node, height_null, update_height] at *; omega
            · simp only [height_node, height_null, update_height] at *; omega
          | node rl rx rh rr =>
            obtain ⟨s, rest, hs1, hs2⟩ := min_value_node_spec rl rr rx rh
            have hsm : s ∈ inorder (node rl rx rh rr) := by rw [hs2]; simp
            obtain ⟨ks, hks⟩ := Option.isSome_iff_exists.mp (hkr s hsm)
            obtain ⟨r1, removed, hd, har1, hlo, hhi⟩ := ihr ks har hor hkr
            rcases delete_node_inorder hl _ _ _ _ hor hkr hd with
              ⟨_, hno, _⟩ | ⟨m, hm, _, _⟩
            · exact absurd (hl.key_self s ks hks) (hno s hsm)
            · subst hm
              obtain ⟨t1, hbal, hat1, h1, h2, h3⟩ :=
                balance_avl m hal har1 (by omega) (by omega)
              refine ⟨t1, some x, ?_, hat1, ?_, ?_⟩
              · simp only [hs1, hks, hd, delete_finish, hbal, Option.map_some']
              · by_cases h4 : height (node ll lx lh lr) - height r1 ≤ 1
                · have := h3 h4 (by omega)
                  subst this
                  simp only [height_node, update_height] at *; omega
                · simp only [height_node, update_height] at *; omega
              · simp only [height_node, update_height] at *; omega

/-! ## Cached and true heights -/

theorem Avl.true_height {t : priv_btree_node α} (ha : Avl t) : height t = (true_height t : Int) := by
  induction t with
  | null => simp [height_null, Btree.true_height]
  | node l x h r ihl ihr =>
    obtain ⟨hal, har, hh, _, _⟩ := ha
    have h1 := ihl hal
    have h2 := ihr har
    simp only [height_node, Btree.true_height, update_height] at *
    omega

theorem avl_iff {t : priv_btree_node α} : Avl t ↔ HeightsCached t ∧ Balanced t := by
  induction t with
  | null => simp [Avl, HeightsCached, Balanced]
  | node l x h r ihl ihr =>
    constructor
    · intro ha
      obtain ⟨hal, har, hh, h1, h2⟩ := ha
      have e1 := hal.true_height
      have e2 := har.true_height
      obtain ⟨c1, b1⟩ := ihl.mp hal
      obtain ⟨c2, b2⟩ := ihr.mp har
      exact ⟨⟨c1, c2, hh⟩, b1, b2, by omega, by omega⟩
    · rintro ⟨⟨c1, c2, hh⟩, b1, b2, h1, h2⟩
      have hal := ihl.mpr ⟨c1, b1⟩
      have har := ihr.mpr ⟨c2, b2⟩
      have e1 := hal.true_height
      have e2 := har.true_height
      exact ⟨hal, har, hh, by omega, by omega⟩

/-! ## The header reset of `btree_insert` -/

theorem reset_header_of_not_mem [DecidableEq α] (e : α) :
    ∀ t : priv_btree_node α, e ∉ inorder t → reset_header e t = t := by
  intro t
  induction t with
  | null => intro _; rfl
  | node l x h r ihl ihr =>
    intro hn
    simp only [inorder, List.mem_append, List.mem_cons, not_or] at hn
    obtain ⟨h1, h2, h3⟩ := hn
    have hx : ¬ x = e := fun hc => h2 hc.symm
    simp only [reset_header, hx, if_false, ihl h1, ihr h3]

theorem reset_header_sublist [DecidableEq α] (e : α) :
    ∀ t : priv_btree_node α, (inorder (reset_header e t)).Sublist (inorder t) := by
  intro t
  induction t with
  | null => exact List.Sublist.refl _
  | node l x h r ihl ihr =>
    simp only [reset_header]
    split_ifs with hx
    · simp only [inorder, List.nil_append]
      have h1 : ([x] : List α).Sublist (x :: inorder r) := by simp
      exact h1.trans (List.sublist_append_right _ _)
    · simp only [inorder]
      exact List.Sublist.append ihl (List.Sublist.cons₂ x ihr)

theorem Ordered.of_sublist {ops : btree_ops α κ} {t t1 : priv_btree_node α}
    (hs : (inorder t1).Sublist (inorder t)) (ho : Ordered ops t) : Ordered ops t1 :=
  List.Pairwise.sublist hs ho

theorem Keyed.of_subset {ops : btree_ops α κ} {t t1 : priv_btree_node α}
    (hs : ∀ x ∈ inorder t1, x ∈ inorder t) (hk : Keyed ops t) : Keyed ops t1 :=
  fun x hx => hk x (hs x hx)

theorem ordered_unique {ops : btree_ops α κ} (hl : Lawful ops) {L : List α}
    (ho : L.Pairwise (fun a b => ops.compare_node a b < 0)) {a b : α} (ha : a ∈ L) (hb : b ∈ L)
    (h0 : ops.compare_node a b = 0) : a = b := by
  induction L with
  | nil => simp at ha
  | cons c L ih =>
    rw [List.pairwise_cons] at ho
    rcases List.mem_cons.mp ha with ha1 | ha1 <;> rcases List.mem_cons.mp hb with hb1 | hb1
    · rw [ha1, hb1]
    · rw [ha1] at h0
      have := ho.1 b hb1
      omega
    · rw [hb1] at h0
      have := ho.1 a ha1
      have := hl.symm_zero h0
      omega
    · exact ih ho.2 ha1 hb1

/-! ## One call of `btree_insert` -/

theorem btree_insert_fresh [DecidableEq α] {ops : btree_ops α κ} (hl : Lawful ops)
    (s : btree α) (e : α) (hk : (ops.get_key_ptr e).isSome = true)
    (ho : Ordered ops s.root) (ha : Avl s.root) (hf : e ∉ inorder s.root) :
    ∃ s1 rc, btree_insert ops s (some e) = some (s1, rc) ∧ Avl s1.root ∧
      ((rc = -EEXIST ∧ s1 = s ∧ ∃ x ∈ inorder s.root, ops.compare_node e x = 0) ∨
        (rc = 0 ∧ s1.size = (s.size + 1) % UINT32_MOD ∧
          InsertedAt ops e (inorder s.root) (inorder s1.root))) := by
  have hk2 : (ops.get_key_ptr e).isNone = false := by
    cases hg : ops.get_key_ptr e with
    | none => rw [hg] at hk; simp at hk
    | some k => rfl
  unfold btree_insert
  simp only [hk2, Bool.false_eq_true, if_false, reset_header_of_not_mem e s.root hf]
  obtain ⟨root, size⟩ := s
  simp only at ho ha hf ⊢
  cases root with
  | null =>
    refine ⟨_, _, rfl, ?_, Or.inr ⟨rfl, rfl, [], [], ?_, ?_, ?_, ?_⟩⟩ <;>
      simp [Avl, update_height, height_null, inorder]
  | node l x h r =>
    obtain ⟨t1, hi, ht1⟩ := insert_avl ops e (node l x h r) ha
    simp only [hi]
    rcases insert_inorder hl e _ _ ho hi with ⟨hn, hdup⟩ | ⟨hn, hins⟩
    · subst hn
      exact ⟨_, _, rfl, ha, Or.inl ⟨rfl, rfl, hdup⟩⟩
    · cases t1 with
      | null => exact absurd rfl hn
      | node a y hy b =>
        rcases ht1 with ht1 | ⟨hat1, _⟩
        · exact absurd ht1 hn
        · exact ⟨_, _, rfl, hat1, Or.inr ⟨rfl, rfl, hins⟩⟩

theorem btree_insert_ordered [DecidableEq α] {ops : btree_ops α κ} (hl : Lawful ops)
    {s s1 : btree α} {n : Option α} {rc : Int} (ho : Ordered ops s.root) (hk : Keyed ops s.root)
    (h : btree_insert ops s n = some (s1, rc)) : Ordered ops s1.root ∧ Keyed ops s1.root := by
  unfold btree_insert at h
  cases n with
  | none =>
    simp only [Option.some.injEq, Prod.mk.injEq] at h
    rw [← h.1]; exact ⟨ho, hk⟩
  | some e =>
    simp only at h
    split_ifs at h with hkey
    · simp only [Option.some.injEq, Prod.mk.injEq] at h
      rw [← h.1]; exact ⟨ho, hk⟩
    · have hke : (ops.get_key_ptr e).isSome = true := by
        cases hg : ops.get_key_ptr e with
        | none => rw [hg] at hkey; simp at hkey
        | some k => rfl
      have hsub := reset_header_sublist e s.root
      have ho2 : Ordered ops (reset_header e s.root) := Ordered.of_sublist hsub ho
      have hk2 : Keyed ops (reset_header e s.root) :=
        Keyed.of_subset (fun x hx => hsub.subset hx) hk
      cases hr : reset_header e s.root with
      | null =>
        simp only [hr, Option.some.injEq, Prod.mk.injEq] at h
        rw [← h.1]
        refine ⟨by simp [Ordered, inorder], ?_⟩
        intro y hy
        simp only [inorder, List.nil_append, List.mem_singleton] at hy
        subst hy; exact hke
      | node l x hh r =>
        rw [hr] at ho2 hk2
        simp only [hr] at h
        cases hi : insert ops (node l x hh r) e with
        | none => simp [hi] at h
        | some t1 =>
          rcases insert_inorder hl e _ _ ho2 hi with ⟨hn, _⟩ | ⟨hn, hins⟩
          · subst hn
            simp only [hi, Option.some.injEq, Prod.mk.injEq] at h
            rw [← h.1]; exact ⟨ho2, hk2⟩
          · cases t1 with
            | null => exact absurd rfl hn
            | node a y hy b =>
              simp only [hi, Option.some.injEq, Prod.mk.injEq] at h
              rw [← h.1]
              refine ⟨hins.ordered ho2, ?_⟩
              obtain ⟨L1, L2, e1, e2, _, _⟩ := hins
              intro z hz
              simp only at hz
              rw [e2] at hz
              simp only [List.mem_append, List.mem_cons] at hz
              rcases hz with hz | hz | hz
              · exact hk2 z (by rw [e1]; simp [hz])
              · subst hz; exact hke
              · exact hk2 z (by rw [e1]; simp [hz])

/-! ## One call of `btree_remove` -/

theorem RemovedAt.sublist {m : α} {L L1 : List α} (h : RemovedAt m L L1) : L1.Sublist L := by
  obtain ⟨A, B, e1, e2⟩ := h
  rw [e1, e2]
  exact List.Sublist.append (List.Sublist.refl _) (List.sublist_cons_self _ _)

theorem btree_remove_ordered {ops : btree_ops α κ} (hl : Lawful ops)
    {s s1 : btree α} {kp : Option κ} {rm : Option α} (ho : Ordered ops s.root)
    (hk : Keyed ops s.root) (h : btree_remove ops s kp = some (s1, rm)) :
    Ordered ops s1.root ∧ Keyed ops s1.root := by
  unfold btree_remove at h
  cases hd : delete_node ops s.root kp with
  | none => simp [hd] at h
  | some p =>
    obtain ⟨t1, rm0⟩ := p
    simp only [hd, Option.some.injEq, Prod.mk.injEq] at h
    rw [← h.1]
    simp only
    cases kp with
    | none =>
      have : t1 = null := by
        cases hs : s.root with
        | null => rw [hs] at hd; simp [delete_node] at hd; exact hd.1.symm
        | node l x hh r => rw [hs] at hd; simp [delete_node] at hd; exact hd.1.symm
      subst this
      exact ⟨by simp [Ordered, inorder], fun y hy => by simp [inorder] at hy⟩
    | some k =>
      have hsub : (inorder t1).Sublist (inorder s.root) := by
        rcases delete_node_inorder hl _ _ _ _ ho hk hd with ⟨_, _, hi⟩ | ⟨m, _, _, hrm⟩
        · rw [hi]
        · exact hrm.sublist
      exact ⟨Ordered.of_sublist hsub ho, Keyed.of_subset (fun x hx => hsub.subset hx) hk⟩

theorem btree_remove_valid {ops : btree_ops α κ} (hl : Lawful ops)
    (s : btree α) (kp : Option κ) (ho : Ordered ops s.root)
    (hk : Keyed ops s.root) (ha : Avl s.root) :
    ∃ s1 rm, btree_remove ops s kp = some (s1, rm) ∧ Avl s1.root := by
  unfold btree_remove
  cases kp with
  | none =>
    cases hs : s.root with
    | null => exact ⟨_, _, rfl, trivial⟩
    | node l x hh r => exact ⟨_, _, rfl, trivial⟩
  | some k =>
    obtain ⟨t1, rm, hd, hat1, _, _⟩ := delete_node_avl hl k s.root ha ho hk
    simp only [hd]
    exact ⟨_, _, rfl, hat1⟩

/-! ## Lookup and traversal -/

theorem get_node_sound (ops : btree_ops α κ) (k : κ) :
    ∀ (t : priv_btree_node α) (n : α), get_node ops t k = some n →
      n ∈ inorder t ∧ ops.compare_node_key n k = 0 := by
  intro t
  induction t with
  | null => intro n h; simp [get_node] at h
  | node l x hh r ihl ihr =>
    intro n h
    simp only [get_node] at h
    split_ifs at h with h1 h2
    · obtain ⟨h3, h4⟩ := ihl n h
      exact ⟨by simp [inorder, h3], h4⟩
    · obtain ⟨h3, h4⟩ := ihr n h
      exact ⟨by simp [inorder, h3], h4⟩
    · simp only [Option.some.injEq] at h
      subst h
      exact ⟨by simp [inorder], by omega⟩

theorem get_node_complete {ops : btree_ops α κ} (hl : Lawful ops) (k : κ) :
    ∀ (t : priv_btree_node α), Ordered ops t → ∀ m ∈ inorder t,
      ops.compare_node_key m k = 0 → get_node ops t k = some m := by
  intro t
  induction t with
  | null => intro _ m hm; simp [inorder] at hm
  | node l x hh r ihl ihr =>
    intro ho m hm hm0
    obtain ⟨hol, hor, hlx, hxr, _⟩ := ordered_node.mp ho
    simp only [inorder, List.mem_append, List.mem_cons] at hm
    simp only [get_node]
    by_cases h1 : ops.compare_node_key x k > 0
    · simp only [h1, if_true]
      rcases hm with hm | hm | hm
      · exact ihl hol m hm hm0
      · subst hm; omega
      · have h3 := hl.key_mono m x k (by omega) (by omega) (Or.inr h1)
        have h4 := (hl.antisymm x m).mp (hxr m hm)
        omega
    · by_cases h2 : ops.compare_node_key x k < 0
      · simp only [h1, h2, if_true, if_false]
        rcases hm with hm | hm | hm
        · have h3 := hl.key_mono x m k (by omega) (by omega) (Or.inl h2)
          have h4 := (hl.antisymm m x).mp (hlx m hm)
          omega
        · subst hm; omega
        · exact ihr hor m hm hm0
      · simp only [h1, h2, if_false, Option.some.injEq]
        have h0 : ops.compare_node x m = 0 := hl.key_eq x m k (by omega) hm0
        have hmem : m ∈ inorder (node l x hh r) := by
          simp only [inorder, List.mem_append, List.mem_cons]; exact hm
        exact ordered_unique hl ho (by simp [inorder]) hmem h0

theorem walk_eq_foldl (fn : α → σ → σ) :
    ∀ (t : priv_btree_node α) (st : σ),
      walk fn t st = (inorder t).foldl (fun acc x => fn x acc) st := by
  intro t
  induction t with
  | null => intro st; rfl
  | node l x hh r ihl ihr =>
    intro st
    simp only [walk, inorder, List.foldl_append, List.foldl_cons, ihl, ihr]

theorem length_inorder : ∀ t : priv_btree_node α, (inorder t).length = count_nodes t := by
  intro t
  induction t with
  | null => rfl
  | node l x hh r ihl ihr =>
    simp only [inorder, count_nodes, List.length_append, List.length_cons, ihl, ihr]
    omega

theorem ordered_nodup {ops : btree_ops α κ} (hl : Lawful ops) {L : List α}
    (ho : L.Pairwise (fun a b => ops.compare_node a b < 0)) : L.Nodup := by
  refine List.Pairwise.imp ?_ ho
  intro a b hab heq
  rw [heq] at hab
  have := hl.refl b
  omega

/-! ## Sequences of calls -/

theorem run_ordered [DecidableEq α] {ops : btree_ops α κ} (hl : Lawful ops) :
    ∀ (calls : List (call α κ)) (s s1 : btree α), Ordered ops s.root → Keyed ops s.root →
      run ops s calls = some s1 → Ordered ops s1.root ∧ Keyed ops s1.root := by
  intro calls
  induction calls with
  | nil =>
    intro s s1 ho hk h
    simp only [run, Option.some.injEq] at h
    subst h; exact ⟨ho, hk⟩
  | cons c cs ih =>
    intro s s1 ho hk h
    simp only [run] at h
    cases hs : step ops s c with
    | none => simp [hs] at h
    | some s2 =>
      simp only [hs] at h
      have h2 : Ordered ops s2.root ∧ Keyed ops s2.root := by
        cases c with
        | insert n =>
          simp only [step, Option.map_eq_some'] at hs
          obtain ⟨⟨s3, rc⟩, h3, h4⟩ := hs
          simp only at h4
          subst h4
          exact btree_insert_ordered hl ho hk h3
        | remove kp =>
          simp only [step, Option.map_eq_some'] at hs
          obtain ⟨⟨s3, rm⟩, h3, h4⟩ := hs
          simp only at h4
          subst h4
          exact btree_remove_ordered hl ho hk h3
      exact ih s2 s1 h2.1 h2.2 h

theorem run_owned [DecidableEq α] {ops : btree_ops α κ} (hl : Lawful ops) :
    ∀ (calls : List (call α κ)) (s : btree α), Ordered ops s.root → Keyed ops s.root →
      Avl s.root → caller_owned ops s calls = true →
      ∃ s1, run ops s calls = some s1 ∧ Avl s1.root := by
  intro calls
  induction calls with
  | nil => intro s _ _ ha _; exact ⟨s, rfl, ha⟩
  | cons c cs ih =>
    intro s ho hk ha hc
    simp only [caller_owned, Bool.and_eq_true] at hc
    obtain ⟨hc1, hc2⟩ := hc
    have hstep : ∃ s2, step ops s c = some s2 ∧ Avl s2.root := by
      cases c with
      | insert n =>
        cases n with
        | none => exact ⟨s, rfl, ha⟩
        | some e =>
          simp only [decide_eq_true_eq] at hc1
          cases hg : ops.get_key_ptr e with
          | none =>
            refine ⟨s, ?_, ha⟩
            simp [step, btree_insert, hg]
          | some k =>
            obtain ⟨s2, rc, h1, h2, _⟩ :=
              btree_insert_fresh hl s e (by rw [hg]; rfl) ho ha hc1
            exact ⟨s2, by simp [step, h1], h2⟩
      | remove kp =>
        obtain ⟨s2, rm, h1, h2⟩ := btree_remove_valid hl s kp ho hk ha
        exact ⟨s2, by simp [step, h1], h2⟩
    obtain ⟨s2, hs, ha2⟩ := hstep
    have hok := run_ordered hl [c] s s2 ho hk (by simp [run, hs])
    simp only [hs] at hc2
    obtain ⟨s1, hr, ha1⟩ := ih s2 hok.1 hok.2 ha2 hc2
    exact ⟨s1, by simp [run, hs, hr], ha1⟩

/-! ## The callbacks of the example program are lawful -/

theorem example_ops_lawful : Lawful example_ops where
  antisymm := by intro a b; simp only [example_ops]; split_ifs <;> omega
  trans := by intro a b c; simp only [example_ops]; split_ifs <;> omega
  eq_trans := by intro a b c; simp only [example_ops]; split_ifs <;> omega
  key_self := by
    intro e k h
    simp only [example_ops, Option.some.injEq] at h
    simp [example_ops, h]
  key_mono := by
    intro a b k h1 h2 h3
    simp only [example_ops] at h1 h2 h3 ⊢
    split_ifs at h1 h2 h3 ⊢ <;> omega
  key_eq := by
    intro a b k h1 h2
    simp only [example_ops] at h1 h2 ⊢
    split_ifs at h1 h2 ⊢ <;> omega

theorem searchTree_of_ordered {ops : btree_ops α κ} :
    ∀ t : priv_btree_node α, Ordered ops t → SearchTree ops t := by
  intro t
  induction t with
  | null => intro _; trivial
  | node l x h r ihl ihr =>
    intro ho
    obtain ⟨hol, hor, hlx, hxr, _⟩ := ordered_node.mp ho
    exact ⟨ihl hol, ihr hor, hlx, hxr⟩

theorem ordered_of_searchTree {ops : btree_ops α κ} (hl : Lawful ops) :
    ∀ t : priv_btree_node α, SearchTree ops t → Ordered ops t := by
  intro t
  induction t with
  | null => intro _; exact ordered_null
  | node l x h r ihl ihr =>
    rintro ⟨hsl, hsr, hlx, hxr⟩
    exact ordered_node.mpr ⟨ihl hsl, ihr hsr, hlx, hxr,
      fun a ha b hb => hl.trans a x b (hlx a ha) (hxr b hb)⟩

/-! ## The claims -/

/-- C1 (as amended): for every state reached from `btree_init` by a finite sequence of
`btree_insert` and `btree_remove` calls in which no `btree_insert` is given a node that is
linked in the tree at the time of the call, with lawful callbacks, every call is defined and
every node of the final tree satisfies `|height(left) - height(right)| <= 1` on true subtree
heights. Key pointers and node pointers may be `NULL`. -/
theorem balance_invariant_owned [DecidableEq α] {ops : btree_ops α κ} (hl : Lawful ops)
    (tree : btree α) (calls : List (call α κ))
    (hown : caller_owned ops (btree_init tree) calls = true) :
    ∃ s, run ops (btree_init tree) calls = some s ∧ Balanced s.root := by
  obtain ⟨s, hr, ha⟩ := run_owned hl calls (btree_init tree) ordered_null
    (fun x hx => by simp [btree_init, inorder] at hx) trivial hown
  exact ⟨s, hr, (avl_iff.mp ha).2⟩

/-- Witness of C1 (as amended) on the example callbacks. -/
theorem balance_invariant_owned_witness :
    caller_owned example_ops (btree_init ⟨null, 0⟩) owned_calls = true ∧
      ∃ s, run example_ops (btree_init ⟨null, 0⟩) owned_calls = some s ∧ Balanced s.root :=
  ⟨by decide, balance_invariant_owned example_ops_lawful ⟨null, 0⟩ owned_calls (by decide)⟩

/-- C1 as stated fails: with the lawful callbacks of the example program and keys that are
never `NULL`, seven successful inserts followed by `btree_insert` of the node with key 2, which
is already linked, leave a root whose subtrees have true heights 1 and 3. -/
theorem balance_invariant_counterexample :
    Lawful example_ops ∧ (∀ e, (example_ops.get_key_ptr e).isSome = true) ∧
      run example_ops (btree_init ⟨null, 0⟩) reinsert_calls = some reinsert_state ∧
      ¬ Balanced reinsert_state.root :=
  ⟨example_ops_lawful, fun _ => rfl, by decide, by decide⟩

/-- C2: in every state reached from `btree_init` by a finite sequence of `btree_insert` and
`btree_remove` calls with lawful callbacks, `btree_walk` applies the visitor to the nodes in
left-node-right order, once per node, and the visited sequence is strictly ascending under
`compare_node`; the search-tree order holds at every node and two nodes with equal keys are
the same node. -/
theorem order_invariant [DecidableEq α] {ops : btree_ops α κ} (hl : Lawful ops)
    (tree : btree α) (calls : List (call α κ)) (s : btree α)
    (hr : run ops (btree_init tree) calls = some s) :
    (∀ (τ : Type) (fn : α → τ → τ) (st : τ),
        btree_walk (some s) (some fn) st = (inorder s.root).foldl (fun acc x => fn x acc) st) ∧
      (inorder s.root).length = count_nodes s.root ∧ (inorder s.root).Nodup ∧
      (inorder s.root).Pairwise (fun a b => ops.compare_node a b < 0) ∧
      SearchTree ops s.root ∧
      ∀ a ∈ inorder s.root, ∀ b ∈ inorder s.root, ops.compare_node a b = 0 → a = b := by
  have ho : Ordered ops s.root :=
    (run_ordered hl calls (btree_init tree) s ordered_null
      (fun x hx => by simp [btree_init, inorder] at hx) hr).1
  exact ⟨fun τ fn st => walk_eq_foldl fn s.root st, length_inorder s.root, ordered_nodup hl ho,
    ho, searchTree_of_ordered s.root ho, fun a ha b hb h0 => ordered_unique hl ho ha hb h0⟩

/-- Witness of C2 on the example callbacks. -/
theorem order_invariant_witness :
    run example_ops (btree_init ⟨null, 0⟩) reinsert_calls = some reinsert_state ∧
      ((∀ (τ : Type) (fn : data → τ → τ) (st : τ),
        btree_walk (some reinsert_state) (some fn) st =
          (inorder reinsert_state.root).foldl (fun acc x => fn x acc) st) ∧
      (inorder reinsert_state.root).length = count_nodes reinsert_state.root ∧
      (inorder reinsert_state.root).Nodup ∧
      (inorder reinsert_state.root).Pairwise (fun a b => example_ops.compare_node a b < 0) ∧
      SearchTree example_ops reinsert_state.root ∧
      ∀ a ∈ inorder reinsert_state.root, ∀ b ∈ inorder reinsert_state.root,
        example_ops.compare_node a b = 0 → a = b) :=
  ⟨by decide,
    order_invariant example_ops_lawful ⟨null, 0⟩ reinsert_calls reinsert_state (by decide)⟩

/-- C3 fails on the code: after `btree_init`, `btree_insert` of key 7 and `btree_remove` of the
absent key 5, one node is reachable from the root and `size` is 0; a `btree_remove` on the
empty tree leaves `size` at `2 ^ 32 - 1`. -/
theorem count_invariant_broken :
    (∃ s, run example_ops (btree_init ⟨null, 0⟩) [insert_key 7, call.remove (some 5)] = some s ∧
      s.size = 0 ∧ count_nodes s.root = 1) ∧
    (∃ s, run example_ops (btree_init ⟨null, 0⟩) [call.remove (some 5)] = some s ∧
      s.size = 4294967295 ∧ count_nodes s.root = 0) :=
  ⟨⟨_, rfl, rfl, rfl⟩, ⟨_, rfl, rfl, rfl⟩⟩

/-- C4: for a valid tree (ordered, balanced, heights cached correctly) and a node with a key
that compares equal to no key in the tree, `btree_insert` returns 0, `size` is incremented
(as a `uint32_t`; by exactly 1 unless it was `2 ^ 32 - 1`), and the in-order sequence is the
previous one with the node put at its sorted position. -/
theorem insert_success [DecidableEq α] {ops : btree_ops α κ} (hl : Lawful ops)
    (s : btree α) (e : α) (ho : Ordered ops s.root) (hb : Balanced s.root)
    (hh : HeightsCached s.root) (hkey : (ops.get_key_ptr e).isSome = true)
    (hnew : ∀ x ∈ inorder s.root, ops.compare_node e x ≠ 0) :
    ∃ s1, btree_insert ops s (some e) = some (s1, 0) ∧
      s1.size = (s.size + 1) % UINT32_MOD ∧ (s.size + 1 < UINT32_MOD → s1.size = s.size + 1) ∧
      InsertedAt ops e (inorder s.root) (inorder s1.root) := by
  have hf : e ∉ inorder s.root := fun hc => hnew e hc (hl.refl e)
  obtain ⟨s1, rc, h1, _, h2⟩ := btree_insert_fresh hl s e hkey ho (avl_iff.mpr ⟨hh, hb⟩) hf
  rcases h2 with ⟨_, _, x, hx, hx0⟩ | ⟨hrc, hsz, hins⟩
  · exact absurd hx0 (hnew x hx)
  · subst hrc
    exact ⟨s1, h1, hsz, fun hlt => by rw [hsz, Nat.mod_eq_of_lt hlt], hins⟩

/-- Witness of C4: inserting key 7 into the tree with keys 1, 2, 3. -/
theorem insert_success_witness :
    Ordered example_ops small_tree.root ∧ Balanced small_tree.root ∧
      HeightsCached small_tree.root ∧ (example_ops.get_key_ptr (elem_of 7)).isSome = true ∧
      (∀ x ∈ inorder small_tree.root, example_ops.compare_node (elem_of 7) x ≠ 0) ∧
      ∃ s1, btree_insert example_ops small_tree (some (elem_of 7)) = some (s1, 0) ∧
        s1.size = (small_tree.size + 1) % UINT32_MOD ∧
        (small_tree.size + 1 < UINT32_MOD → s1.size = small_tree.size + 1) ∧
        InsertedAt example_ops (elem_of 7) (inorder small_tree.root) (inorder s1.root) :=
  ⟨by decide, by decide, by decide, by decide, by decide,
    insert_success example_ops_lawful small_tree (elem_of 7) (by decide) (by decide)
      (by decide) (by decide) (by decide)⟩

/-- C5: for a valid tree whose linked nodes all have a key, and a key that matches the linked
node `m`, `btree_remove` returns `m` itself (whatever the number of its children) and the
in-order sequence is the previous one with that one occurrence of `m` taken out. -/
theorem remove_success {ops : btree_ops α κ} (hl : Lawful ops) (s : btree α) (k : κ) (m : α)
    (ho : Ordered ops s.root) (hb : Balanced s.root) (hh : HeightsCached s.root)
    (hk : Keyed ops s.root) (hm : m ∈ inorder s.root) (hm0 : ops.compare_node_key m k = 0) :
    ∃ s1, btree_remove ops s (some k) = some (s1, some m) ∧
      RemovedAt m (inorder s.root) (inorder s1.root) := by
  obtain ⟨t1, rm, hd, _, _, _⟩ := delete_node_avl hl k s.root (avl_iff.mpr ⟨hh, hb⟩) ho hk
  rcases delete_node_inorder hl _ _ _ _ ho hk hd with ⟨_, hno, _⟩ | ⟨m1, hrm, hm1, hrem⟩
  · exact absurd hm0 (hno m hm)
  · have hm1mem : m1 ∈ inorder s.root := by
      obtain ⟨L1, L2, e1, _⟩ := hrem
      rw [e1]; simp
    have : m = m1 := ordered_unique hl ho hm hm1mem (hl.key_eq m m1 k hm0 hm1)
    subst this
    refine ⟨_, by simp only [btree_remove, hd, hrm]; rfl, hrem⟩

/-- Witness of C5: removing the root (key 2, two children) of the tree with keys 1, 2, 3. -/
theorem remove_success_witness :
    Ordered example_ops small_tree.root ∧ Balanced small_tree.root ∧
      HeightsCached small_tree.root ∧ Keyed example_ops small_tree.root ∧
      elem_of 2 ∈ inorder small_tree.root ∧
      example_ops.compare_node_key (elem_of 2) 2 = 0 ∧
      ∃ s1, btree_remove example_ops small_tree (some 2) = some (s1, some (elem_of 2)) ∧
        RemovedAt (elem_of 2) (inorder small_tree.root) (inorder s1.root) :=
  ⟨by decide, by decide, by decide, by decide, by decide, by decide,
    remove_success example_ops_lawful small_tree 2 (elem_of 2) (by decide) (by decide)
      (by decide) (by decide) (by decide) (by decide)⟩

/-- Lookup in one tree: on a tree satisfying the search-tree order, `btree_get` with a key
that is not `NULL` returns a node matching the key exactly when some linked node matches it;
the call leaves the tree as it was. -/
theorem lookup_in_tree {ops : btree_ops α κ} (hl : Lawful ops) (s : btree α) (k : κ)
    (ho : SearchTree ops s.root) :
    ((∃ n, (btree_get ops (some s) (some k)).2 = some n ∧ ops.compare_node_key n k = 0) ↔
        ∃ m ∈ inorder s.root, ops.compare_node_key m k = 0) ∧
      (∀ n, (btree_get ops (some s) (some k)).2 = some n →
        n ∈ inorder s.root ∧ ops.compare_node_key n k = 0) ∧
      ((∀ m ∈ inorder s.root, ops.compare_node_key m k ≠ 0) →
        (btree_get ops (some s) (some k)).2 = none) ∧
      (btree_get ops (some s) none).2 = none ∧
      (∀ m ∈ inorder s.root, ops.get_key_ptr m = some k →
        (btree_get ops (some s) (some k)).2 = some m) ∧
      ∀ kp, (btree_get ops (some s) kp).1 = some s := by
  have hord : Ordered ops s.root := ordered_of_searchTree hl s.root ho
  have hsound : ∀ n, (btree_get ops (some s) (some k)).2 = some n →
      n ∈ inorder s.root ∧ ops.compare_node_key n k = 0 :=
    fun n hn => get_node_sound ops k s.root n hn
  have hcomp : ∀ m ∈ inorder s.root, ops.compare_node_key m k = 0 →
      (btree_get ops (some s) (some k)).2 = some m :=
    fun m hm hm0 => get_node_complete hl k s.root hord m hm hm0
  refine ⟨⟨?_, ?_⟩, hsound, ?_, rfl, ?_, ?_⟩
  · rintro ⟨n, hn, hn0⟩
    exact ⟨n, (hsound n hn).1, hn0⟩
  · rintro ⟨m, hm, hm0⟩
    exact ⟨m, hcomp m hm hm0, hm0⟩
  · intro hno
    cases hg : (btree_get ops (some s) (some k)).2 with
    | none => rfl
    | some n => exact absurd (hsound n hg).2 (hno n (hsound n hg).1)
  · intro m hm hkm
    exact hcomp m hm (hl.key_self m k hkm)
  · intro kp
    cases kp <;> rfl

theorem run_live [DecidableEq α] {ops : btree_ops α κ} (hl : Lawful ops) :
    ∀ (calls : List (call α κ)) (s : btree α) (acc : List α), Ordered ops s.root →
      Keyed ops s.root → Avl s.root → (∀ e ∈ acc, e ∈ inorder s.root) →
      caller_owned ops s calls = true → remove_keys_present calls = true →
      ∃ s1 live, run ops s calls = some s1 ∧ live_nodes ops s calls acc = some live ∧
        Ordered ops s1.root ∧ ∀ e ∈ live, e ∈ inorder s1.root := by
  intro calls
  induction calls with
  | nil => intro s acc ho _ _ hacc _ _; exact ⟨s, acc, rfl, rfl, ho, hacc⟩
  | cons c cs ih =>
    intro s acc ho hk ha hacc hown hkeys
    simp only [caller_owned, Bool.and_eq_true] at hown
    obtain ⟨hc1, hc2⟩ := hown
    cases c with
    | insert n =>
      have hkeys2 : remove_keys_present cs = true := by
        simpa [remove_keys_present] using hkeys
      have hins : ∃ s2 rc, btree_insert ops s n = some (s2, rc) ∧ Avl s2.root ∧
          ∀ e ∈ (match n with
            | some e => if rc = 0 then e :: acc else acc
            | none => acc), e ∈ inorder s2.root := by
        cases n with
        | none => exact ⟨s, -EINVAL, rfl, ha, hacc⟩
        | some e =>
          simp only [decide_eq_true_eq] at hc1
          cases hg : ops.get_key_ptr e with
          | none =>
            refine ⟨s, -EINVAL, by simp [btree_insert, hg], ha, ?_⟩
            simpa [EINVAL] using hacc
          | some k0 =>
            obtain ⟨s2, rc, h1, h2, h3⟩ :=
              btree_insert_fresh hl s e (by rw [hg]; rfl) ho ha hc1
            refine ⟨s2, rc, h1, h2, ?_⟩
            rcases h3 with ⟨hrc, hs2, _⟩ | ⟨hrc, _, L1, L2, e1, e2, _, _⟩
            · subst hrc hs2
              simpa [EEXIST] using hacc
            · subst hrc
              intro x hx
              simp only [if_true, List.mem_cons] at hx
              rw [e2]
              rcases hx with hx | hx
              · subst hx; simp
              · have := hacc x hx
                rw [e1] at this
                simp only [List.mem_append, List.mem_cons] at this ⊢
                tauto
      obtain ⟨s2, rc, hi, ha2, hacc2⟩ := hins
      obtain ⟨ho2, hk2⟩ := btree_insert_ordered hl ho hk hi
      have hst : step ops s (call.insert n) = some s2 := by simp [step, hi]
      simp only [hst] at hc2
      obtain ⟨s1, live, hr, hlv, ho1, hmem⟩ := ih s2 _ ho2 hk2 ha2 hacc2 hc2 hkeys2
      refine ⟨s1, live, by simp [run, hst, hr], ?_, ho1, hmem⟩
      simp only [live_nodes, hi]
      cases n with
      | none => exact hlv
      | some e => exact hlv
    | remove kp =>
      cases kp with
      | none => simp [remove_keys_present] at hkeys
      | some k =>
        have hkeys2 : remove_keys_present cs = true := by
          simpa [remove_keys_present] using hkeys
        obtain ⟨s2, rm, h1, ha2⟩ := btree_remove_valid hl s (some k) ho hk ha
        obtain ⟨ho2, hk2⟩ := btree_remove_ordered hl ho hk h1
        have hst : step ops s (call.remove (some k)) = some s2 := by simp [step, h1]
        simp only [hst] at hc2
        have hd : delete_node ops s.root (some k) = some (s2.root, rm) := by
          unfold btree_remove at h1
          cases hdn : delete_node ops s.root (some k) with
          | none => simp [hdn] at h1
          | some p =>
            obtain ⟨t1, rm0⟩ := p
            simp only [hdn, Option.some.injEq, Prod.mk.injEq] at h1
            rw [← h1.1, ← h1.2]
        have hacc2 : ∀ e ∈ (match rm with
            | some m => acc.filter (fun x => decide (x ≠ m))
            | none => acc), e ∈ inorder s2.root := by
          rcases delete_node_inorder hl _ _ _ _ ho hk hd with
            ⟨hn, _, hio⟩ | ⟨m, hm, _, L1, L2, e1, e2⟩
          · subst hn
            intro x hx
            rw [hio]; exact hacc x hx
          · subst hm
            intro x hx
            simp only [List.mem_filter, decide_eq_true_eq] at hx
            have := hacc x hx.1
            rw [e1] at this
            rw [e2]
            simp only [List.mem_append, List.mem_cons] at this ⊢
            rcases this with h | h | h
            · exact Or.inl h
            · exact absurd h hx.2
            · exact Or.inr h
        obtain ⟨s1, live, hr, hlv, ho1, hmem⟩ := ih s2 _ ho2 hk2 ha2 hacc2 hc2 hkeys2
        refine ⟨s1, live, by simp [run, hst, hr], ?_, ho1, hmem⟩
        simp only [live_nodes, h1]
        cases rm with
        | none => exact hlv
        | some m => exact hlv

/-- C6 (as amended): on a tree satisfying the search-tree order, `btree_get` with a key that
is not `NULL` returns a node matching the key exactly when some linked node matches it, the
returned node is linked in the tree, and the result is `NULL` when no node matches or when
the key pointer is `NULL`; every linked node is returned by a lookup of its own key; the
call leaves the tree (root, linkage, heights, size) as it was. Over call histories: after
any sequence of `btree_insert` and `btree_remove` calls from `btree_init` in which no
`btree_insert` is given a node that is linked at the time of the call and every
`btree_remove` is given a key pointer that is not `NULL`, every node whose insert returned 0
and that no later remove has returned is found by `btree_get` of its key. -/
theorem lookup_correct [DecidableEq α] {ops : btree_ops α κ} (hl : Lawful ops) :
    (∀ (s : btree α) (k : κ), SearchTree ops s.root →
      ((∃ n, (btree_get ops (some s) (some k)).2 = some n ∧ ops.compare_node_key n k = 0) ↔
          ∃ m ∈ inorder s.root, ops.compare_node_key m k = 0) ∧
        (∀ n, (btree_get ops (some s) (some k)).2 = some n →
          n ∈ inorder s.root ∧ ops.compare_node_key n k = 0) ∧
        ((∀ m ∈ inorder s.root, ops.compare_node_key m k ≠ 0) →
          (btree_get ops (some s) (some k)).2 = none) ∧
        (btree_get ops (some s) none).2 = none ∧
        (∀ m ∈ inorder s.root, ops.get_key_ptr m = some k →
          (btree_get ops (some s) (some k)).2 = some m) ∧
        ∀ kp, (btree_get ops (some s) kp).1 = some s) ∧
    (∀ (tree : btree α) (calls : List (call α κ)),
      caller_owned ops (btree_init tree) calls = true → remove_keys_present calls = true →
      ∃ s live, run ops (btree_init tree) calls = some s ∧
        live_nodes ops (btree_init tree) calls [] = some live ∧
        ∀ e ∈ live, ∀ k, ops.get_key_ptr e = some k →
          (btree_get ops (some s) (some k)).2 = some e) := by
  refine ⟨fun s k ho => lookup_in_tree hl s k ho, ?_⟩
  intro tree calls hown hkeys
  obtain ⟨s, live, hr, hlv, ho, hmem⟩ := run_live hl calls (btree_init tree) [] ordered_null
    (fun x hx => by simp [btree_init, inorder] at hx) trivial
    (fun e he => by simp at he) hown hkeys
  exact ⟨s, live, hr, hlv, fun e he k hk =>
    get_node_complete hl k s.root ho e (hmem e he) (hl.key_self e k hk)⟩

/-- Witness of C6 (as amended): lookups after the calls of the example program, and of key 3
in the tree with keys 1, 2, 3. -/
theorem lookup_correct_witness :
    Lawful example_ops ∧ SearchTree example_ops small_tree.root ∧
      (btree_get example_ops (some small_tree) (some 3)).2 = some (elem_of 3) ∧
      (btree_get example_ops (some small_tree) (some 3)).1 = some small_tree ∧
      caller_owned example_ops (btree_init ⟨null, 0⟩) program_calls = true ∧
      remove_keys_present program_calls = true ∧
      ∃ s live, run example_ops (btree_init ⟨null, 0⟩) program_calls = some s ∧
        live_nodes example_ops (btree_init ⟨null, 0⟩) program_calls [] = some live ∧
        ∀ e ∈ live, ∀ k, example_ops.get_key_ptr e = some k →
          (btree_get example_ops (some s) (some k)).2 = some e :=
  ⟨example_ops_lawful, by decide,
    ((lookup_correct example_ops_lawful).1 small_tree 3 (by decide)).2.2.2.2.1 (elem_of 3)
      (by decide) rfl,
    ((lookup_correct example_ops_lawful).1 small_tree 3 (by decide)).2.2.2.2.2 (some 3),
    by decide, by decide,
    (lookup_correct example_ops_lawful).2 ⟨null, 0⟩ program_calls (by decide) (by decide)⟩

/-- C6 as stated fails: with the lawful callbacks of the example program, after the inserts
of the nodes 2 and 1 a second `btree_insert` of the linked node 2 cuts off its child, so the
node 1, whose insert returned 0 and which no remove has returned, is not found; and after
the insert of the node 1 a `btree_remove` with a `NULL` key pointer returns `NULL` and
empties the tree, so the node 1 is not found either. -/
theorem lookup_correct_counterexample :
    Lawful example_ops ∧
      (run example_ops (btree_init ⟨null, 0⟩) lost_key_calls = some ⟨leaf 2, 2⟩ ∧
        live_nodes example_ops (btree_init ⟨null, 0⟩) lost_key_calls [] =
          some [elem_of 1, elem_of 2] ∧
        SearchTree example_ops (leaf 2) ∧
        (btree_get example_ops (some ⟨leaf 2, 2⟩) (some 1)).2 = none) ∧
      (run example_ops (btree_init ⟨null, 0⟩) null_remove_calls = some ⟨null, 0⟩ ∧
        live_nodes example_ops (btree_init ⟨null, 0⟩) null_remove_calls [] =
          some [elem_of 1] ∧
        (btree_get example_ops (some ⟨null, 0⟩) (some 1)).2 = none) :=
  ⟨example_ops_lawful, ⟨by decide, by decide, by decide, by decide⟩,
    ⟨by decide, by decide, by decide⟩⟩

/-- C7: for a valid tree and two distinct elements `a`, `b` with keys, `compare_node(a, b) = 0`
and the key of `a` not in the tree, `btree_insert(a)` returns 0 and the following
`btree_insert(b)` returns `-EEXIST` and leaves the state (root, linkage, heights, size) as the
first call left it; overall `size` was incremented once. -/
theorem duplicate_rejected [DecidableEq α] {ops : btree_ops α κ} (hl : Lawful ops)
    (s : btree α) (a b : α) (ho : Ordered ops s.root) (hb : Balanced s.root)
    (hh : HeightsCached s.root) (hab : a ≠ b) (h0 : ops.compare_node a b = 0)
    (hka : (ops.get_key_ptr a).isSome = true) (hkb : (ops.get_key_ptr b).isSome = true)
    (hnew : ∀ x ∈ inorder s.root, ops.compare_node a x ≠ 0) :
    ∃ s1, btree_insert ops s (some a) = some (s1, 0) ∧
      btree_insert ops s1 (some b) = some (s1, -EEXIST) ∧
      s1.size = (s.size + 1) % UINT32_MOD ∧ (s.size + 1 < UINT32_MOD → s1.size = s.size + 1) := by
  have hf : a ∉ inorder s.root := fun hc => hnew a hc (hl.refl a)
  obtain ⟨s1, rc, h1, ha1, h2⟩ := btree_insert_fresh hl s a hka ho (avl_iff.mpr ⟨hh, hb⟩) hf
  rcases h2 with ⟨_, _, x, hx, hx0⟩ | ⟨hrc, hsz, hins⟩
  · exact absurd hx0 (hnew x hx)
  · subst hrc
    have ho1 : Ordered ops s1.root := hins.ordered ho
    obtain ⟨L1, L2, e1, e2, hL1, hL2⟩ := hins
    have hamem : a ∈ inorder s1.root := by rw [e2]; simp
    have hfb : b ∉ inorder s1.root := by
      intro hc
      rw [e2] at hc
      simp only [List.mem_append, List.mem_cons] at hc
      rcases hc with hc | hc | hc
      · exact hnew b (by rw [e1]; simp [hc]) h0
      · exact hab hc.symm
      · exact hnew b (by rw [e1]; simp [hc]) h0
    obtain ⟨s2, rc2, h3, _, h4⟩ := btree_insert_fresh hl s1 b hkb ho1 ha1 hfb
    rcases h4 with ⟨hrc2, hs2, _⟩ | ⟨_, _, M1, M2, f1, _, hM1, hM2⟩
    · subst hrc2 hs2
      exact ⟨s2, h1, h3, hsz, fun hlt => by rw [hsz, Nat.mod_eq_of_lt hlt]⟩
    · exfalso
      rw [f1] at hamem
      rcases List.mem_append.mp hamem with hc | hc
      · have := hM1 a hc
        omega
      · have := hM2 a hc
        have := hl.symm_zero h0
        omega

/-- Witness of C7: two distinct elements with key 7 inserted into the tree with keys 1, 2, 3. -/
theorem duplicate_rejected_witness :
    Ordered example_ops small_tree.root ∧ Balanced small_tree.root ∧
      HeightsCached small_tree.root ∧ elem_of 7 ≠ ({ id := 8, key := 7 } : data) ∧
      example_ops.compare_node (elem_of 7) { id := 8, key := 7 } = 0 ∧
      ∃ s1, btree_insert example_ops small_tree (some (elem_of 7)) = some (s1, 0) ∧
        btree_insert example_ops s1 (some { id := 8, key := 7 }) = some (s1, -EEXIST) ∧
        s1.size = (small_tree.size + 1) % UINT32_MOD ∧
        (small_tree.size + 1 < UINT32_MOD → s1.size = small_tree.size + 1) :=
  ⟨by decide, by decide, by decide, by decide, by decide,
    duplicate_rejected example_ops_lawful small_tree (elem_of 7) { id := 8, key := 7 }
      (by decide) (by decide) (by decide) (by decide) (by decide) (by decide) (by decide)
      (by decide)⟩

/-- C8 fails on the code: `btree_remove` of the absent key 5 returns `NULL` and still
decrements `size`, from 3 to 2 on the tree with keys 1, 2, 3 and from 0 to `2 ^ 32 - 1` on
the empty tree. -/
theorem remove_absent_decrements :
    btree_remove example_ops small_tree (some 5) = some ({ small_tree with size := 2 }, none) ∧
      btree_remove example_ops { root := null, size := 0 } (some 5) =
        some ({ root := null, size := 4294967295 }, none) :=
  ⟨by decide, by decide⟩

/-- C9: on a balanced tree with correctly cached heights, `btree_remove` of a key that matches
no node returns `NULL` and the root with everything below it (children and heights of every
node) is what it was before the call. -/
theorem remove_absent_unchanged {ops : btree_ops α κ} (s : btree α) (k : κ)
    (hb : Balanced s.root) (hh : HeightsCached s.root)
    (hno : ∀ x ∈ inorder s.root, ops.compare_node_key x k ≠ 0) :
    ∃ s1, btree_remove ops s (some k) = some (s1, none) ∧ s1.root = s.root := by
  have hd := delete_node_absent ops k s.root (avl_iff.mpr ⟨hh, hb⟩) hno
  exact ⟨{ root := s.root, size := (s.size + (UINT32_MOD - 1)) % UINT32_MOD },
    by simp only [btree_remove, hd], rfl⟩

/-- Witness of C9: removing the absent key 5 from the tree with keys 1, 2, 3. -/
theorem remove_absent_unchanged_witness :
    Balanced small_tree.root ∧ HeightsCached small_tree.root ∧
      (∀ x ∈ inorder small_tree.root, example_ops.compare_node_key x 5 ≠ 0) ∧
      ∃ s1, btree_remove example_ops small_tree (some 5) = some (s1, none) ∧
        s1.root = small_tree.root :=
  ⟨by decide, by decide, by decide,
    remove_absent_unchanged small_tree 5 (by decide) (by decide) (by decide)⟩

/-- C10 fails on the code: `btree_remove` with a `NULL` key pointer returns `NULL`, but
`delete_node` hands back `NULL` as the new root, so the tree with keys 1, 2, 3 is emptied
(`root` becomes `NULL`) and `size` goes from 3 to 2. -/
theorem remove_null_key_empties :
    btree_remove example_ops small_tree none = some ({ root := null, size := 2 }, none) ∧
      small_tree.root ≠ null :=
  ⟨by decide, by decide⟩

/-! ## Further facts and claims -/

theorem Avl.heights_true : ∀ {t : priv_btree_node α}, Avl t → HeightsTrue t
  | null, _ => trivial
  | node l x h r, ha => by
    have e0 := Avl.true_height ha
    obtain ⟨hal, har, hh, _, _⟩ := ha
    have hp : 1 ≤ h := Avl.height_pos (l := l) (r := r) (x := x) ⟨hal, har, hh, by assumption, by assumption⟩
    exact ⟨Avl.heights_true hal, Avl.heights_true har, by simpa [height_node] using e0, hp⟩

/-- C11: `btree_insert` returns `-EINVAL` exactly when the node pointer is `NULL` or
`get_key_ptr(node)` is `NULL`; in that case the call is defined and returns the state as it
was (root, size and the header of every linked node), and the header of the passed node
(`left`, `right`, `height`) is what it was before the call. -/
theorem invalid_argument [DecidableEq α] (ops : btree_ops α κ) (tree : btree α)
    (node_ptr : Option α) :
    (∀ s1 rc, btree_insert ops tree node_ptr = some (s1, rc) →
      (rc = -EINVAL ↔ (node_ptr = none ∨ ∃ e, node_ptr = some e ∧ ops.get_key_ptr e = none))) ∧
    ((node_ptr = none ∨ ∃ e, node_ptr = some e ∧ ops.get_key_ptr e = none) →
      btree_insert ops tree node_ptr = some (tree, -EINVAL)) ∧
    (∀ e l h r, node_ptr = some e → ops.get_key_ptr e = none →
      btree_insert_node ops tree e l h r = some (node l e h r)) := by
  have hinv : (node_ptr = none ∨ ∃ e, node_ptr = some e ∧ ops.get_key_ptr e = none) →
      btree_insert ops tree node_ptr = some (tree, -EINVAL) := by
    rintro (h | ⟨e, h1, h2⟩)
    · subst h; rfl
    · subst h1; simp [btree_insert, h2]
  refine ⟨?_, hinv, ?_⟩
  · intro s1 rc h
    constructor
    · intro hrc
      cases node_ptr with
      | none => exact Or.inl rfl
      | some e =>
        right
        refine ⟨e, rfl, ?_⟩
        cases hk : ops.get_key_ptr e with
        | none => rfl
        | some k =>
          exfalso
          simp only [btree_insert, hk, Option.isNone_some, Bool.false_eq_true, if_false] at h
          subst hrc
          revert h
          cases reset_header e tree.root with
          | null => simp [EINVAL]
          | node a y hy b =>
            simp only
            cases insert ops (node a y hy b) e with
            | none => simp
            | some t1 =>
              cases t1 with
              | null => simp [EINVAL, EEXIST]
              | node a1 y1 h1 b1 => simp [EINVAL]
    · intro hc
      rw [hinv hc] at h
      simp only [Option.some.injEq, Prod.mk.injEq] at h
      exact h.2.symm
  · intro e l h r _ hk
    simp [btree_insert_node, hk]

/-- C13 (as amended): after `btree_init` and `btree_insert` of the keys 50, 10, 47, 108, 13, 5,
1, 127, 354562934, 2345, 123, 111 in that order with the example program's comparators, the
height cached at the root is 5, which is the true height of the tree; the tree has 12 nodes
and is AVL-balanced. -/
theorem scenario_height :
    run example_ops (btree_init ⟨null, 0⟩) scenario_calls = some scenario_tree ∧
      height scenario_tree.root = 5 ∧ true_height scenario_tree.root = 5 ∧
      count_nodes scenario_tree.root = 12 ∧ Balanced scenario_tree.root ∧
      HeightsCached scenario_tree.root :=
  ⟨by decide, by decide, by decide, by decide, by decide, by decide⟩

/-- C13 as stated fails: the height cached at the root after the twelve inserts is not 4. -/
theorem scenario_height_counterexample :
    run example_ops (btree_init ⟨null, 0⟩) scenario_calls = some scenario_tree ∧
      height scenario_tree.root ≠ 4 :=
  ⟨by decide, by decide⟩

/-- C14: in the example program all twelve inserts return 0 and the in-order walk visits the
keys 1, 5, 10, 13, 47, 50, 108, 111, 123, 127, 2345, 354562934; removing 354562934 returns
that node, after which `btree_get(354562934)` is `NULL`, `size` is 11 and every balance factor
is within 1; removing 127 then returns that node, the walk visits 1, 5, 10, 13, 47, 50, 108,
111, 123, 2345, `btree_get(127)` is `NULL` and `btree_get(111)` returns the node with key
111. -/
theorem scenario_sequence :
    ∃ s11 s10,
      insert_all example_ops (btree_init ⟨null, 0⟩)
          (scenario_keys.map (fun n => some (elem_of n))) =
        some (scenario_tree, [0, 0, 0, 0, 0, 0, 0, 0, 0, 0, 0, 0]) ∧
      btree_walk (some scenario_tree) (some (fun x acc => acc ++ [x.key])) [] =
        [1, 5, 10, 13, 47, 50, 108, 111, 123, 127, 2345, 354562934] ∧
      btree_remove example_ops scenario_tree (some 354562934) =
        some (s11, some (elem_of 354562934)) ∧
      (btree_get example_ops (some s11) (some 354562934)).2 = none ∧
      s11.size = 11 ∧ BalanceFactorsOk s11.root ∧ Balanced s11.root ∧
      btree_remove example_ops s11 (some 127) = some (s10, some (elem_of 127)) ∧
      btree_walk (some s10) (some (fun x acc => acc ++ [x.key])) [] =
        [1, 5, 10, 13, 47, 50, 108, 111, 123, 2345] ∧
      (btree_get example_ops (some s10) (some 127)).2 = none ∧
      (btree_get example_ops (some s10) (some 111)).2 = some (elem_of 111) :=
  ⟨_, _, by decide, by decide, rfl, by decide, by decide, by decide, by decide, rfl, by decide,
    by decide, by decide⟩

/-- C15 (as amended): for every state reached from `btree_init` by a finite sequence of
`btree_insert` and `btree_remove` calls in which no `btree_insert` is given a node that is
linked in the tree at the time of the call, with lawful callbacks, every call is defined and
every linked node has `height == 1 + max(height(left), height(right))` (0 for an absent
child), which is the true height of its subtree and at least 1. -/
theorem height_invariant_owned [DecidableEq α] {ops : btree_ops α κ} (hl : Lawful ops)
    (tree : btree α) (calls : List (call α κ))
    (hown : caller_owned ops (btree_init tree) calls = true) :
    ∃ s, run ops (btree_init tree) calls = some s ∧ HeightsCached s.root ∧
      HeightsTrue s.root := by
  obtain ⟨s, hr, ha⟩ := run_owned hl calls (btree_init tree) ordered_null
    (fun x hx => by simp [btree_init, inorder] at hx) trivial hown
  exact ⟨s, hr, (avl_iff.mp ha).1, ha.heights_true⟩

/-- Witness of C15 (as amended) on the example callbacks. -/
theorem height_invariant_owned_witness :
    caller_owned example_ops (btree_init ⟨null, 0⟩) owned_calls = true ∧
      ∃ s, run example_ops (btree_init ⟨null, 0⟩) owned_calls = some s ∧
        HeightsCached s.root ∧ HeightsTrue s.root :=
  ⟨by decide, height_invariant_owned example_ops_lawful ⟨null, 0⟩ owned_calls (by decide)⟩

/-- C15 as stated fails: with the lawful callbacks of the example program, four successful
inserts followed by `btree_insert` of the node with key 3, which is linked and has the child
4, leave a root that caches height 3 over two leaves. -/
theorem height_invariant_counterexample :
    Lawful example_ops ∧
      run example_ops (btree_init ⟨null, 0⟩) stale_calls = some stale_state ∧
      ¬ HeightsCached stale_state.root ∧ ¬ HeightsTrue stale_state.root :=
  ⟨example_ops_lawful, by decide, by decide, by decide⟩

theorem split_unique {e : α} : ∀ (L1 L2 A B : List α), (L1 ++ e :: L2).Nodup →
    L1 ++ e :: L2 = A ++ e :: B → L1 = A ∧ L2 = B := by
  intro L1
  induction L1 with
  | nil =>
    intro L2 A B hn he
    cases A with
    | nil => simp only [List.nil_append, List.cons.injEq, true_and] at he; exact ⟨rfl, he⟩
    | cons a A =>
      exfalso
      simp only [List.nil_append, List.cons_append, List.cons.injEq] at he
      simp only [List.nil_append, List.nodup_cons] at hn
      exact hn.1 (by rw [he.2]; simp)
  | cons c L1 ih =>
    intro L2 A B hn he
    cases A with
    | nil =>
      exfalso
      simp only [List.nil_append, List.cons_append, List.cons.injEq] at he
      simp only [List.cons_append, List.nodup_cons] at hn
      exact hn.1 (by rw [he.1]; simp)
    | cons a A =>
      simp only [List.cons_append, List.cons.injEq] at he
      simp only [List.cons_append, List.nodup_cons] at hn
      obtain ⟨h1, h2⟩ := ih L2 A B hn.2 he.2
      exact ⟨by rw [he.1, h1], h2⟩

/-- C12: for a valid tree whose linked nodes all have a key, and a node `e` whose key `k`
compares equal to no key in the tree, `btree_insert(e)` returns 0 and the `btree_remove(k)`
that follows returns `e`; afterwards the tree is ordered, balanced, has correct cached
heights, the same in-order sequence as before the insert, and `size` is back at its value. -/
theorem round_trip [DecidableEq α] {ops : btree_ops α κ} (hl : Lawful ops) (s : btree α)
    (e : α) (k : κ) (ho : Ordered ops s.root) (hb : Balanced s.root)
    (hh : HeightsCached s.root) (hk : Keyed ops s.root) (hsize : s.size < UINT32_MOD)
    (hkey : ops.get_key_ptr e = some k)
    (hnew : ∀ x ∈ inorder s.root, ops.compare_node e x ≠ 0) :
    ∃ s1 s2, btree_insert ops s (some e) = some (s1, 0) ∧
      btree_remove ops s1 (some k) = some (s2, some e) ∧
      Ordered ops s2.root ∧ Balanced s2.root ∧ HeightsCached s2.root ∧
      s2.size = s.size ∧ inorder s2.root = inorder s.root := by
  have hf : e ∉ inorder s.root := fun hc => hnew e hc (hl.refl e)
  have hke : (ops.get_key_ptr e).isSome = true := by rw [hkey]; rfl
  obtain ⟨s1, rc, h1, ha1, h2⟩ := btree_insert_fresh hl s e hke ho (avl_iff.mpr ⟨hh, hb⟩) hf
  rcases h2 with ⟨_, _, x, hx, hx0⟩ | ⟨hrc, hsz, hins⟩
  · exact absurd hx0 (hnew x hx)
  · subst hrc
    obtain ⟨ho1, hk1⟩ := btree_insert_ordered hl ho hk h1
    obtain ⟨L1, L2, e1, e2, _, _⟩ := hins
    have hmem : e ∈ inorder s1.root := by rw [e2]; simp
    obtain ⟨t2, rm, hd, hat2, _, _⟩ := delete_node_avl hl k s1.root ha1 ho1 hk1
    rcases delete_node_inorder hl _ _ _ _ ho1 hk1 hd with ⟨_, hno, _⟩ | ⟨m, hrm, hm0, A, B, f1, f2⟩
    · exact absurd (hl.key_self e k hkey) (hno e hmem)
    · have hmmem : m ∈ inorder s1.root := by rw [f1]; simp
      have hme : e = m :=
        ordered_unique hl ho1 hmem hmmem (hl.key_eq e m k (hl.key_self e k hkey) hm0)
      subst hme hrm
      have hnd : (L1 ++ e :: L2).Nodup := by rw [← e2]; exact ordered_nodup hl ho1
      obtain ⟨g1, g2⟩ := split_unique L1 L2 A B hnd (by rw [← e2, f1])
      have hio : inorder t2 = inorder s.root := by rw [f2, e1, g1, g2]
      refine ⟨s1, { root := t2, size := (s1.size + (UINT32_MOD - 1)) % UINT32_MOD }, h1,
        by simp only [btree_remove, hd], ?_, (avl_iff.mp hat2).2, (avl_iff.mp hat2).1, ?_, hio⟩
      · exact ordered_of_inorder_eq hio ho
      · simp only [hsz, UINT32_MOD] at hsize ⊢
        omega

/-- Witness of C12: key 7 inserted into the tree with keys 1, 2, 3 and removed again. -/
theorem round_trip_witness :
    Ordered example_ops small_tree.root ∧ Balanced small_tree.root ∧
      HeightsCached small_tree.root ∧ Keyed example_ops small_tree.root ∧
      small_tree.size < UINT32_MOD ∧ example_ops.get_key_ptr (elem_of 7) = some 7 ∧
      ∃ s1 s2, btree_insert example_ops small_tree (some (elem_of 7)) = some (s1, 0) ∧
        btree_remove example_ops s1 (some 7) = some (s2, some (elem_of 7)) ∧
        Ordered example_ops s2.root ∧ Balanced s2.root ∧ HeightsCached s2.root ∧
        s2.size = small_tree.size ∧ inorder s2.root = inorder small_tree.root :=
  ⟨by decide, by decide, by decide, by decide, by decide, by decide,
    round_trip example_ops_lawful small_tree (elem_of 7) 7 (by decide) (by decide) (by decide)
      (by decide) (by decide) (by decide) (by decide)⟩

theorem HeightsCached.cached_nonneg : ∀ {t : priv_btree_node α}, HeightsCached t → 0 ≤ height t
  | null, _ => by simp [height_null]
  | node l _ h r, hc => by
    obtain ⟨h1, h2, h3⟩ := hc
    have := HeightsCached.cached_nonneg h1
    have := HeightsCached.cached_nonneg h2
    simp only [height_node, update_height] at *
    omega

theorem HeightsCached.eq_null {t : priv_btree_node α} (hc : HeightsCached t)
    (h : height t ≤ 0) : t = null := by
  cases t with
  | null => rfl
  | node l x hh r =>
    exfalso
    obtain ⟨h1, h2, h3⟩ := hc
    have := h1.cached_nonneg
    have := h2.cached_nonneg
    simp only [height_node, update_height] at *
    omega

theorem Avl.balance_factors : ∀ {t : priv_btree_node α}, Avl t → BalanceFactorsOk t
  | null, _ => trivial
  | node l x h r, ha => by
    obtain ⟨hal, har, _, h1, h2⟩ := ha
    exact ⟨hal.balance_factors, har.balance_factors, by simpa [get_balance] using h1,
      by simpa [get_balance] using h2⟩

theorem balance_height_irrel (l r : priv_btree_node α) (x : α) (h h2 : Int)
    (hb : get_balance (node l x h r) > 1 ∨ get_balance (node l x h r) < -1) :
    balance (node l x h r) = balance (node l x h2 r) := by
  simp only [get_balance] at hb
  simp only [balance, get_balance]
  split_ifs with c1 c2 c3 c4
  · cases l <;> rfl
  · cases hl : l_rotate l with
    | none => rfl
    | some l1 => cases l1 <;> rfl
  · cases r <;> rfl
  · cases hr : r_rotate r with
    | none => rfl
    | some r1 => cases r1 <;> rfl
  · exfalso
    rcases hb with hb | hb
    · by_cases hg : get_balance l ≥ 0
      · exact c1 ⟨hb, hg⟩
      · exact c2 ⟨hb, by omega⟩
    · by_cases hg : get_balance r ≤ 0
      · exact c3 ⟨hb, hg⟩
      · exact c4 ⟨hb, by omega⟩

theorem balance_defined {l r : priv_btree_node α} (x : α) (h : Int) (hcl : HeightsCached l)
    (hcr : HeightsCached r) : ∃ t1, balance (node l x h r) = some t1 := by
  have hnl := hcl.cached_nonneg
  have hnr := hcr.cached_nonneg
  simp only [balance, get_balance]
  split_ifs with c1 c2 c3 c4
  · cases l with
    | null => simp only [height_null] at c1; omega
    | node a lx lh b => exact ⟨_, rfl⟩
  · cases l with
    | null => simp only [height_null] at c2; omega
    | node a lx lh b =>
      cases b with
      | null =>
        exfalso
        obtain ⟨ha, _, _⟩ := hcl
        have := ha.cached_nonneg
        simp only [get_balance, height_null] at c2
        omega
      | node z y hy c => exact ⟨_, rfl⟩
  · cases r with
    | null => simp only [height_null] at c3; omega
    | node a rx rh b => exact ⟨_, rfl⟩
  · cases r with
    | null => simp only [height_null] at c4; omega
    | node a rx rh b =>
      cases a with
      | null =>
        exfalso
        obtain ⟨_, hb, _⟩ := hcr
        have := hb.cached_nonneg
        simp only [get_balance, height_null] at c4
        omega
      | node z y hy c => exact ⟨_, rfl⟩
  · exact ⟨_, rfl⟩

/-- C16: `r_rotate(y)` on a node `y` with left child `x` returns `x` as the subtree root with
`y` as its right child and the former right subtree of `x` as the left subtree of `y`, with
`y->height` recomputed first and `x->height` after it; the in-order sequence is kept and the
cached heights are correct afterwards when they are in the three untouched subtrees.
Symmetrically for `l_rotate`. `balance(root)` keeps the in-order sequence, is defined whenever
the cached heights below the root are correct, and when the balance factor of the root is 2
or -2 over AVL-valid children the result has correct cached heights and every balance factor
between -1 and 1. -/
theorem rotations_correct :
    (∀ (a z c : priv_btree_node α) (x y : α) (hx hy : Int),
      r_rotate (node (node a x hx z) y hy c) =
          some (node a x (update_height a (node z y (update_height z c) c))
            (node z y (update_height z c) c)) ∧
        inorder (node a x (update_height a (node z y (update_height z c) c))
            (node z y (update_height z c) c)) = inorder (node (node a x hx z) y hy c) ∧
        (HeightsCached a → HeightsCached z → HeightsCached c →
          HeightsCached (node a x (update_height a (node z y (update_height z c) c))
            (node z y (update_height z c) c)))) ∧
    (∀ (a z c : priv_btree_node α) (x y : α) (hx hy : Int),
      l_rotate (node a x hx (node z y hy c)) =
          some (node (node a x (update_height a z) z) y
            (update_height (node a x (update_height a z) z) c) c) ∧
        inorder (node (node a x (update_height a z) z) y
            (update_height (node a x (update_height a z) z) c) c) =
          inorder (node a x hx (node z y hy c)) ∧
        (HeightsCached a → HeightsCached z → HeightsCached c →
          HeightsCached (node (node a x (update_height a z) z) y
            (update_height (node a x (update_height a z) z) c) c))) ∧
    (∀ t t1 : priv_btree_node α, balance t = some t1 → inorder t1 = inorder t) ∧
    (∀ (l r : priv_btree_node α) (x : α) (h : Int), HeightsCached l → HeightsCached r →
      ∃ t1, balance (node l x h r) = some t1) ∧
    (∀ (l r : priv_btree_node α) (x : α) (h : Int), HeightsCached l → Balanced l →
      HeightsCached r → Balanced r →
      (get_balance (node l x h r) = 2 ∨ get_balance (node l x h r) = -2) →
      ∃ t1, balance (node l x h r) = some t1 ∧ inorder t1 = inorder (node l x h r) ∧
        BalanceFactorsOk t1 ∧ HeightsCached t1 ∧ Balanced t1) := by
  refine ⟨?_, ?_, fun t t1 h => balance_inorder h, fun l r x h hcl hcr =>
    balance_defined x h hcl hcr, ?_⟩
  · intro a z c x y hx hy
    refine ⟨rfl, by simp [inorder, List.append_assoc], fun ha hz hc => ?_⟩
    exact ⟨ha, ⟨hz, hc, rfl⟩, rfl⟩
  · intro a z c x y hx hy
    refine ⟨rfl, by simp [inorder, List.append_assoc], fun ha hz hc => ?_⟩
    exact ⟨⟨ha, hz, rfl⟩, hc, rfl⟩
  · intro l r x h hcl hbl hcr hbr hb
    have hal : Avl l := avl_iff.mpr ⟨hcl, hbl⟩
    have har : Avl r := avl_iff.mpr ⟨hcr, hbr⟩
    have hb2 : get_balance (node l x h r) > 1 ∨ get_balance (node l x h r) < -1 := by omega
    simp only [get_balance] at hb
    obtain ⟨t1, e1, hat1, _, _, _⟩ := balance_avl x hal har (by omega) (by omega)
    rw [balance_height_irrel l r x h (update_height l r) hb2]
    refine ⟨t1, e1, ?_, hat1.balance_factors, (avl_iff.mp hat1).1, (avl_iff.mp hat1).2⟩
    rw [balance_inorder e1]; rfl

/-- Witness of C16: `balance` on a root with balance factor 2 (left-right case). -/
theorem rotations_correct_witness :
    HeightsCached (node null (elem_of 1) 2 (leaf 2)) ∧ Balanced (node null (elem_of 1) 2 (leaf 2)) ∧
      get_balance (node (node null (elem_of 1) 2 (leaf 2)) (elem_of 3) 3 null) = 2 ∧
      ∃ t1, balance (node (node null (elem_of 1) 2 (leaf 2)) (elem_of 3) 3 null) = some t1 ∧
        inorder t1 = inorder (node (node null (elem_of 1) 2 (leaf 2)) (elem_of 3) 3 null) ∧
        BalanceFactorsOk t1 ∧ HeightsCached t1 ∧ Balanced t1 :=
  ⟨by decide, by decide, by decide,
    rotations_correct.2.2.2.2 (node null (elem_of 1) 2 (leaf 2)) null (elem_of 3) 3
      (by decide) (by decide) trivial trivial (Or.inl (by decide))⟩

theorem delete_node_two_children {ops : btree_ops α κ} (hl : Lawful ops)
    (l r : priv_btree_node α) (m : α) (h : Int) (k : κ) (hl0 : l ≠ null) (hr0 : r ≠ null)
    (ho : Ordered ops (node l m h r)) (hb : Balanced (node l m h r))
    (hh : HeightsCached (node l m h r)) (hk : Keyed ops (node l m h r))
    (hm : ops.compare_node_key m k = 0) :
    ∃ s rest ks r1, min_value_node r = some s ∧ inorder r = s :: rest ∧
      ops.get_key_ptr s = some ks ∧ delete_node ops r (some ks) = some (r1, some s) ∧
      inorder r1 = rest ∧
      delete_node ops (node l m h r) (some k) =
        (balance (node l s (update_height l r1) r1)).map (fun t => (t, some m)) ∧
      (∃ t1, delete_node ops (node l m h r) (some k) = some (t1, some m) ∧
        inorder t1 = inorder l ++ s :: rest) ∧
      ops.compare_node m s < 0 ∧
      ∀ y ∈ inorder (node l m h r), ops.compare_node m y < 0 →
        y = s ∨ ops.compare_node s y < 0 := by
  obtain ⟨hal, har, hhh, hb1, hb2⟩ := avl_iff.mpr ⟨hh, hb⟩
  obtain ⟨hol, hor, hlx, hxr, hlr⟩ := ordered_node.mp ho
  have hkr : Keyed ops r := fun y hy => hk y (by simp [inorder, hy])
  cases l with
  | null => exact absurd rfl hl0
  | node ll lx lh lr =>
    cases r with
    | null => exact absurd rfl hr0
    | node rl rx rh rr =>
      obtain ⟨s, rest, hs1, hs2⟩ := min_value_node_spec rl rr rx rh
      have hsm : s ∈ inorder (node rl rx rh rr) := by rw [hs2]; simp
      obtain ⟨ks, hks⟩ := Option.isSome_iff_exists.mp (hkr s hsm)
      obtain ⟨r1, removed, hd, har1, hlo, hhi⟩ := delete_node_avl hl ks _ har hor hkr
      rcases delete_node_inorder hl _ _ _ _ hor hkr hd with
        ⟨_, hno, _⟩ | ⟨m1, hm1, hm10, A, B, f1, f2⟩
      · exact absurd (hl.key_self s ks hks) (hno s hsm)
      · subst hm1
        have hm1mem : m1 ∈ inorder (node rl rx rh rr) := by rw [f1]; simp
        have hsm1 : s = m1 :=
          ordered_unique hl hor hsm hm1mem (hl.key_eq s m1 ks (hl.key_self s ks hks) hm10)
        subst hsm1
        have hnd : ([] ++ s :: rest).Nodup := by
          rw [List.nil_append, ← hs2]; exact ordered_nodup hl hor
        obtain ⟨g1, g2⟩ := split_unique [] rest A B hnd (by rw [List.nil_append, ← hs2, f1])
        subst g1 g2
        simp only [List.nil_append] at f2
        have hdel : delete_node ops (node (node ll lx lh lr) m h (node rl rx rh rr)) (some k) =
            (balance (node (node ll lx lh lr) s (update_height (node ll lx lh lr) r1) r1)).map
              (fun t => (t, some m)) := by
          rw [delete_node_node]
          have c1 : ¬ ops.compare_node_key m k > 0 := by omega
          have c2 : ¬ ops.compare_node_key m k < 0 := by omega
          simp only [c1, c2, if_false, hs1, hks, hd, delete_finish]
        obtain ⟨t1, hbal, _, _, _, _⟩ :=
          balance_avl s hal har1 (by simp only [height_node] at *; omega)
            (by simp only [height_node] at *; omega)
        refine ⟨s, rest, ks, r1, hs1, hs2, hks, hd, f2, hdel, ⟨t1, ?_, ?_⟩, ?_, ?_⟩
        · rw [hdel, hbal]; rfl
        · rw [balance_inorder hbal]; simp [inorder, f2]
        · exact hxr s hsm
        · intro y hy hmy
          simp only [inorder, List.mem_append, List.mem_cons] at hy
          rcases hy with hy | hy | hy
          · have h1 := hlx y (by simp only [inorder, List.mem_append, List.mem_cons]; exact hy)
            have h2 := (hl.antisymm y m).mp h1
            omega
          · subst hy
            have := hl.refl y
            omega
          · have hy2 : y ∈ s :: rest := by
              rw [← hs2]; simp only [inorder, List.mem_append, List.mem_cons]; exact hy
            rcases List.mem_cons.mp hy2 with hy3 | hy3
            · exact Or.inl hy3
            · right
              have hor2 := hor
              unfold Ordered at hor2
              rw [hs2, List.pairwise_cons] at hor2
              exact hor2.1 y hy3

theorem inorder_subtree {t : priv_btree_node α} :
    ∀ T : priv_btree_node α, subtree_of t T → ∃ A B, inorder T = A ++ inorder t ++ B := by
  intro T
  induction T with
  | null => intro h; exact ⟨[], [], by rw [show t = null from h]; simp [inorder]⟩
  | node l x hh r ihl ihr =>
    intro h
    rcases h with h | h | h
    · exact ⟨[], [], by rw [h]; simp⟩
    · obtain ⟨A, B, e⟩ := ihl h
      exact ⟨A, B ++ x :: inorder r, by simp [inorder, e, List.append_assoc]⟩
    · obtain ⟨A, B, e⟩ := ihr h
      exact ⟨inorder l ++ x :: A, B, by simp [inorder, e, List.append_assoc]⟩

theorem successor_least {ops : btree_ops α κ} (hl : Lawful ops) {T l r : priv_btree_node α}
    {m s : α} {h : Int} {rest : List α} (hT : Ordered ops T)
    (hsub : subtree_of (node l m h r) T) (hs : inorder r = s :: rest) :
    ∀ y ∈ inorder T, ops.compare_node m y < 0 → y = s ∨ ops.compare_node s y < 0 := by
  obtain ⟨A, B, e⟩ := inorder_subtree T hsub
  have e2 : inorder T = (A ++ inorder l) ++ m :: s :: (rest ++ B) := by
    rw [e]; simp [inorder, hs, List.append_assoc]
  unfold Ordered at hT
  rw [e2, List.pairwise_append, List.pairwise_cons, List.pairwise_cons] at hT
  obtain ⟨_, ⟨_, hs1, _⟩, hbefore⟩ := hT
  intro y hy hmy
  rw [e2] at hy
  rcases List.mem_append.mp hy with hy | hy
  · have h1 := hbefore y hy m (by simp)
    have h2 := (hl.antisymm y m).mp h1
    omega
  · rcases List.mem_cons.mp hy with hy | hy
    · subst hy
      have := hl.refl y
      omega
    · rcases List.mem_cons.mp hy with hy | hy
      · exact Or.inl hy
      · exact Or.inr (hs1 y hy)


theorem subtree_balanced {t : priv_btree_node α} :
    ∀ T : priv_btree_node α, subtree_of t T → Balanced T → Balanced t := by
  intro T
  induction T with
  | null => intro h _; rw [show t = null from h]; trivial
  | node l x hh r ihl ihr =>
    intro h hb
    rcases h with h | h | h
    · rw [h]; exact hb
    · exact ihl h hb.1
    · exact ihr h hb.2.1

theorem subtree_heights {t : priv_btree_node α} :
    ∀ T : priv_btree_node α, subtree_of t T → HeightsCached T → HeightsCached t := by
  intro T
  induction T with
  | null => intro h _; rw [show t = null from h]; trivial
  | node l x hh r ihl ihr =>
    intro h hc
    rcases h with h | h | h
    · rw [h]; exact hc
    · exact ihl h hc.1
    · exact ihr h hc.2.1

theorem subtree_sublist {t T : priv_btree_node α} (h : subtree_of t T) :
    (inorder t).Sublist (inorder T) := by
  obtain ⟨A, B, e⟩ := inorder_subtree T h
  rw [e]
  exact (List.sublist_append_right A (inorder t)).trans (List.sublist_append_left _ B)

/-- C17: in a valid tree `T`, when `delete_node` matches a node `m` with two children, the
leftmost node `s` of the right subtree of `m` is deleted from that subtree (the call reports
`s`), and the node put in the position of `m` before the final `balance` step is `s` with the
original left subtree of `m` as its left child and the result of that deletion as its right
child; `s` has the smallest key of `T` above the key of `m`, and the node reported through
`rm_node` is `m`. -/
theorem successor_promotion {ops : btree_ops α κ} (hl : Lawful ops)
    (T l r : priv_btree_node α) (m : α) (h : Int) (k : κ)
    (ho : Ordered ops T) (hb : Balanced T) (hh : HeightsCached T) (hk : Keyed ops T)
    (hsub : subtree_of (node l m h r) T) (hl0 : l ≠ null) (hr0 : r ≠ null)
    (hm : ops.compare_node_key m k = 0) :
    ∃ s rest ks r1, min_value_node r = some s ∧ inorder r = s :: rest ∧
      ops.get_key_ptr s = some ks ∧ delete_node ops r (some ks) = some (r1, some s) ∧
      inorder r1 = rest ∧
      delete_node ops (node l m h r) (some k) =
        (balance (node l s (update_height l r1) r1)).map (fun t => (t, some m)) ∧
      (∃ t1, delete_node ops (node l m h r) (some k) = some (t1, some m) ∧
        inorder t1 = inorder l ++ s :: rest) ∧
      ops.compare_node m s < 0 ∧
      ∀ y ∈ inorder T, ops.compare_node m y < 0 → y = s ∨ ops.compare_node s y < 0 := by
  have hsl := subtree_sublist hsub
  obtain ⟨s, rest, ks, r1, h1, h2, h3, h4, h5, h6, h7, h8, _⟩ :=
    delete_node_two_children hl l r m h k hl0 hr0 (List.Pairwise.sublist hsl ho)
      (subtree_balanced T hsub hb) (subtree_heights T hsub hh)
      (fun x hx => hk x (hsl.subset hx)) hm
  exact ⟨s, rest, ks, r1, h1, h2, h3, h4, h5, h6, h7, h8, successor_least hl ho hsub h2⟩

/-- Witness of C17: removing the root (key 4) of the tree with keys 2, 4, 5, 6, 7; the
successor is the node with key 5, the leftmost node below the right child 6. -/
theorem successor_promotion_witness :
    Ordered example_ops five_tree ∧ Balanced five_tree ∧ HeightsCached five_tree ∧
      Keyed example_ops five_tree ∧
      min_value_node (node (leaf 5) (elem_of 6) 2 (leaf 7)) = some (elem_of 5) ∧
      ∃ s rest ks r1, min_value_node (node (leaf 5) (elem_of 6) 2 (leaf 7)) = some s ∧
        inorder (node (leaf 5) (elem_of 6) 2 (leaf 7)) = s :: rest ∧
        example_ops.get_key_ptr s = some ks ∧
        delete_node example_ops (node (leaf 5) (elem_of 6) 2 (leaf 7)) (some ks) =
          some (r1, some s) ∧
        inorder r1 = rest ∧
        delete_node example_ops five_tree (some 4) =
          (balance (node (leaf 2) s (update_height (leaf 2) r1) r1)).map
            (fun t => (t, some (elem_of 4))) ∧
        (∃ t1, delete_node example_ops five_tree (some 4) = some (t1, some (elem_of 4)) ∧
          inorder t1 = inorder (leaf 2) ++ s :: rest) ∧
        example_ops.compare_node (elem_of 4) s < 0 ∧
        ∀ y ∈ inorder five_tree, example_ops.compare_node (elem_of 4) y < 0 →
          y = s ∨ example_ops.compare_node s y < 0 :=
  ⟨by decide, by decide, by decide, by decide, by decide,
    successor_promotion example_ops_lawful five_tree (leaf 2)
      (node (leaf 5) (elem_of 6) 2 (leaf 7)) (elem_of 4) 3 4 (by decide) (by decide)
      (by decide) (by decide) (by decide) (by decide) (by decide) (by decide)⟩

theorem insert_rebalance_left_eq (ops : btree_ops α κ) {l1 r : priv_btree_node α} (x e : α)
    (hlo : height r - 1 ≤ height l1)
    (hg : height l1 - height r > 1 → ∃ a lx h1 b, l1 = node a lx h1 b ∧
      ((ops.compare_node e lx < 0 ∧ height a = height b + 1) ∨
        (ops.compare_node e lx > 0 ∧ height b = height a + 1))) :
    insert_rebalance ops l1 x r e = balance (node l1 x (update_height l1 r) r) := by
  unfold insert_rebalance
  simp only [balance, get_balance]
  by_cases hb : height l1 - height r > 1
  · obtain ⟨a, lx, h1, b, rfl, hside⟩ := hg hb
    simp only [hb, if_true, true_and, get_balance]
    rcases hside with ⟨hc, hs⟩ | ⟨hc, hs⟩
    · have c1 : height a - height b ≥ 0 := by omega
      simp only [hc, if_true, c1]
    · have c0 : ¬ ops.compare_node e lx < 0 := by omega
      have c1 : ¬ height a - height b ≥ 0 := by omega
      have c2 : height a - height b < 0 := by omega
      simp only [c0, hc, if_true, if_false, c1, c2]
  · have hb2 : ¬ height l1 - height r < -1 := by omega
    simp only [hb, hb2, if_false, false_and]

theorem insert_rebalance_right_eq (ops : btree_ops α κ) {l r1 : priv_btree_node α} (x e : α)
    (hlo : height l - 1 ≤ height r1)
    (hg : height l - height r1 < -1 → ∃ a rx h1 b, r1 = node a rx h1 b ∧
      ((ops.compare_node e rx < 0 ∧ height a = height b + 1) ∨
        (ops.compare_node e rx > 0 ∧ height b = height a + 1))) :
    insert_rebalance ops l x r1 e = balance (node l x (update_height l r1) r1) := by
  unfold insert_rebalance
  simp only [balance, get_balance]
  by_cases hb : height l - height r1 < -1
  · obtain ⟨a, rx, h1, b, rfl, hside⟩ := hg hb
    have hb0 : ¬ height l - height (node a rx h1 b) > 1 := by omega
    simp only [hb0, hb, if_true, if_false, true_and, false_and, get_balance]
    rcases hside with ⟨hc, hs⟩ | ⟨hc, hs⟩
    · have c0 : ¬ ops.compare_node e rx > 0 := by omega
      have c1 : ¬ height a - height b ≤ 0 := by omega
      have c2 : height a - height b > 0 := by omega
      simp only [c0, hc, if_true, if_false, c1, c2]
    · have c1 : height a - height b ≤ 0 := by omega
      simp only [hc, if_true, c1]
  · have hb2 : ¬ height l - height r1 > 1 := by omega
    simp only [hb, hb2, if_false, false_and]

theorem grown_side {ops : btree_ops α κ} {e : α} {t t1 : priv_btree_node α} {d : Int}
    (hat : Avl t) (hg : Grown ops e t t1) (hd : 0 ≤ d) (h2 : height t1 > d + 1)
    (h3 : height t ≤ d + 1) :
    ∃ a x h1 b, t1 = node a x h1 b ∧
      ((ops.compare_node e x < 0 ∧ height a = height b + 1) ∨
        (ops.compare_node e x > 0 ∧ height b = height a + 1)) := by
  rcases hg with hg | ⟨hg, hg2⟩
  · omega
  · rcases hg2 with hg2 | ⟨l0, x0, h0, r0, a0, h1, b0, _, e2, hside⟩
    · subst hg2; simp only [height_null] at hg h3; omega
    · exact ⟨a0, x0, h1, b0, e2, hside⟩

theorem insert_eq_insert_with_balance (ops : btree_ops α κ) (e : α) :
    ∀ t : priv_btree_node α, Avl t → insert ops t e = insert_with_balance ops t e := by
  intro t
  induction t with
  | null => intro _; rfl
  | node l x h r ihl ihr =>
    intro ha
    obtain ⟨hal, har, hh, hb1, hb2⟩ := ha
    have hnl := hal.height_nonneg
    have hnr := har.height_nonneg
    simp only [insert, insert_with_balance]
    rw [← ihl hal, ← ihr har]
    split_ifs with c1 c2
    · obtain ⟨l1, hi, hl1⟩ := insert_avl ops e l hal
      rw [hi]
      cases l1 with
      | null => rfl
      | node a y hy b =>
        simp only
        rcases hl1 with hl1 | ⟨hal1, hg⟩
        · exact absurd hl1 (by simp)
        · apply insert_rebalance_left_eq
          · rcases hg with hg | ⟨hg, _⟩ <;> omega
          · intro hb
            exact grown_side hal hg hnr (by omega) (by omega)
    · obtain ⟨r1, hi, hr1⟩ := insert_avl ops e r har
      rw [hi]
      cases r1 with
      | null => rfl
      | node a y hy b =>
        simp only
        rcases hr1 with hr1 | ⟨har1, hg⟩
        · exact absurd hr1 (by simp)
        · apply insert_rebalance_right_eq
          · rcases hg with hg | ⟨hg, _⟩ <;> omega
          · intro hb
            exact grown_side har hg hnl (by omega) (by omega)
    · rfl

/-- C19: on a valid tree (balanced, cached heights correct) the rotation that `insert` chooses
by comparing the new node with the heavy child is the one `balance` chooses by the balance
factor of the heavy child: `insert` returns what the variant of `insert` ending with
`return balance(root)` returns, for every node passed; at a node whose left (right) subtree
received the new node, lines 128-153 return what `balance` returns on that node after its
height is recomputed. -/
theorem rebalancing_rules_agree (ops : btree_ops α κ) (t : priv_btree_node α) (e : α)
    (hb : Balanced t) (hh : HeightsCached t) :
    insert ops t e = insert_with_balance ops t e ∧
    (∀ l x h r l1, t = node l x h r → ops.compare_node e x < 0 →
      insert ops l e = some l1 → l1 ≠ null →
      insert_rebalance ops l1 x r e = balance (node l1 x (update_height l1 r) r)) ∧
    (∀ l x h r r1, t = node l x h r → ¬ ops.compare_node e x < 0 → ops.compare_node e x > 0 →
      insert ops r e = some r1 → r1 ≠ null →
      insert_rebalance ops l x r1 e = balance (node l x (update_height l r1) r1)) := by
  have ha : Avl t := avl_iff.mpr ⟨hh, hb⟩
  refine ⟨insert_eq_insert_with_balance ops e t ha, ?_, ?_⟩
  · intro l x h r l1 ht _ hi hn
    subst ht
    obtain ⟨hal, har, _, hb1, hb2⟩ := ha
    have hnr := har.height_nonneg
    obtain ⟨l2, hi2, hl2⟩ := insert_avl ops e l hal
    rw [hi] at hi2
    simp only [Option.some.injEq] at hi2
    subst hi2
    rcases hl2 with hl2 | ⟨_, hg⟩
    · exact absurd hl2 hn
    · apply insert_rebalance_left_eq
      · rcases hg with hg | ⟨hg, _⟩ <;> omega
      · intro hb
        exact grown_side hal hg hnr (by omega) (by omega)
  · intro l x h r r1 ht _ _ hi hn
    subst ht
    obtain ⟨hal, har, _, hb1, hb2⟩ := ha
    have hnl := hal.height_nonneg
    obtain ⟨r2, hi2, hr2⟩ := insert_avl ops e r har
    rw [hi] at hi2
    simp only [Option.some.injEq] at hi2
    subst hi2
    rcases hr2 with hr2 | ⟨_, hg⟩
    · exact absurd hr2 hn
    · apply insert_rebalance_right_eq
      · rcases hg with hg | ⟨hg, _⟩ <;> omega
      · intro hb
        exact grown_side har hg hnl (by omega) (by omega)

/-- Witness of C19: key 3 inserted below the keys 1 and 2, where both rules rotate left. -/
theorem rebalancing_rules_agree_witness :
    Balanced (node null (elem_of 1) 2 (leaf 2)) ∧
      HeightsCached (node null (elem_of 1) 2 (leaf 2)) ∧
      insert example_ops (node null (elem_of 1) 2 (leaf 2)) (elem_of 3) =
        insert_with_balance example_ops (node null (elem_of 1) 2 (leaf 2)) (elem_of 3) ∧
      insert example_ops (node null (elem_of 1) 2 (leaf 2)) (elem_of 3) =
        some (node (leaf 1) (elem_of 2) 2 (leaf 3)) :=
  ⟨by decide, by decide,
    (rebalancing_rules_agree example_ops (node null (elem_of 1) 2 (leaf 2)) (elem_of 3)
      (by decide) (by decide)).1, by decide⟩

theorem insert_linked {ops : btree_ops α κ} (hl : Lawful ops) (e : α) :
    ∀ t : priv_btree_node α, Ordered ops t → e ∈ inorder t → insert ops t e = some null := by
  intro t
  induction t with
  | null => intro _ hm; simp [inorder] at hm
  | node l x h r ihl ihr =>
    intro ho hm
    obtain ⟨hol, hor, hlx, hxr, _⟩ := ordered_node.mp ho
    simp only [inorder, List.mem_append, List.mem_cons] at hm
    simp only [insert]
    rcases hm with hm | hm | hm
    · have c1 := hlx e hm
      simp only [c1, if_true, ihl hol hm]
    · subst hm
      have c0 := hl.refl e
      have c1 : ¬ ops.compare_node e e < 0 := by omega
      have c2 : ¬ ops.compare_node e e > 0 := by omega
      simp only [c1, c2, if_false]
    · have c2 := (hl.antisymm x e).mp (hxr e hm)
      have c1 : ¬ ops.compare_node e x < 0 := by omega
      simp only [c1, c2, if_true, if_false, ihr hor hm]

theorem mem_reset_header [DecidableEq α] (e : α) :
    ∀ t : priv_btree_node α, e ∈ inorder t → e ∈ inorder (reset_header e t) := by
  intro t
  induction t with
  | null => intro hm; exact hm
  | node l x h r ihl ihr =>
    intro hm
    simp only [reset_header]
    split_ifs with hx
    · subst hx; simp [inorder]
    · simp only [inorder, List.mem_append, List.mem_cons] at hm ⊢
      rcases hm with hm | hm | hm
      · exact Or.inl (ihl hm)
      · exact absurd hm.symm hx
      · exact Or.inr (Or.inr (ihr hm))

theorem btree_insert_linked [DecidableEq α] {ops : btree_ops α κ} (hl : Lawful ops)
    (s : btree α) (e : α) (hk : (ops.get_key_ptr e).isSome = true)
    (ho : Ordered ops s.root) (hm : e ∈ inorder s.root) :
    ∃ s1, btree_insert ops s (some e) = some (s1, -EEXIST) := by
  have hk2 : (ops.get_key_ptr e).isNone = false := by
    cases hg : ops.get_key_ptr e with
    | none => rw [hg] at hk; simp at hk
    | some k => rfl
  have hm2 := mem_reset_header e s.root hm
  have ho2 : Ordered ops (reset_header e s.root) :=
    Ordered.of_sublist (reset_header_sublist e s.root) ho
  unfold btree_insert
  simp only [hk2, Bool.false_eq_true, if_false]
  cases hr : reset_header e s.root with
  | null => rw [hr] at hm2; simp [inorder] at hm2
  | node l x h r =>
    rw [hr] at hm2 ho2
    simp only [insert_linked hl e _ ho2 hm2]
    exact ⟨_, rfl⟩

theorem delete_node_checked_node (ops : btree_ops α κ) (l r : priv_btree_node α) (x : α)
    (h : Int) (k : κ) :
    delete_node_checked ops (node l x h r) (some k) =
      if ops.compare_node_key x k > 0 then
        match delete_node_checked ops l (some k) with
        | none => none
        | some (l1, rm) => (delete_finish (node l1 x h r)).map (fun t => (t, rm))
      else if ops.compare_node_key x k < 0 then
        match delete_node_checked ops r (some k) with
        | none => none
        | some (r1, rm) => (delete_finish (node l x h r1)).map (fun t => (t, rm))
      else
        match l, r with
        | null, _ => (delete_finish r).map (fun t => (t, some x))
        | node ll lx lh lr, null => (delete_finish (node ll lx lh lr)).map (fun t => (t, some x))
        | node ll lx lh lr, node rl rx rh rr =>
          match min_value_node (node rl rx rh rr) with
          | none => none
          | some tmp =>
            match delete_node_checked ops (node rl rx rh rr) (ops.get_key_ptr tmp) with
            | none => none
            | some (_, none) => none
            | some (r1, some removed) =>
              (delete_finish (node (node ll lx lh lr) removed h r1)).map
                (fun t => (t, some x)) := by
  cases l <;> cases r <;> rfl

theorem delete_node_checked_eq {ops : btree_ops α κ} (hl : Lawful ops) :
    ∀ (t : priv_btree_node α), Ordered ops t → Keyed ops t → ∀ key_ptr : Option κ,
      delete_node_checked ops t key_ptr = delete_node ops t key_ptr := by
  intro t
  induction t with
  | null => intro _ _ key_ptr; rfl
  | node l x h r ihl ihr =>
    intro ho hk key_ptr
    cases key_ptr with
    | none => rfl
    | some k =>
      obtain ⟨hol, hor, -, -, -⟩ := ordered_node.mp ho
      have hkl : Keyed ops l := fun y hy => hk y (by simp [inorder, hy])
      have hkr : Keyed ops r := fun y hy => hk y (by simp [inorder, hy])
      rw [delete_node_checked_node, delete_node_node, ihl hol hkl, ihr hor hkr]
      split_ifs with c1 c2
      · rfl
      · rfl
      · cases l with
        | null => rfl
        | node ll lx lh lr =>
          cases r with
          | null => rfl
          | node rl rx rh rr =>
            simp only
            obtain ⟨s, rest, hs1, hs2⟩ := min_value_node_spec rl rr rx rh
            have hsm : s ∈ inorder (node rl rx rh rr) := by rw [hs2]; simp
            obtain ⟨ks, hks⟩ := Option.isSome_iff_exists.mp (hkr s hsm)
            simp only [hs1, ihr hor hkr]
            cases hd : delete_node ops (node rl rx rh rr) (ops.get_key_ptr s) with
            | none => rfl
            | some p =>
              obtain ⟨r1, removed⟩ := p
              cases removed with
              | some m => rfl
              | none =>
                exfalso
                rw [hks] at hd
                rcases delete_node_inorder hl _ _ _ _ hor hkr hd with
                  ⟨_, hno, _⟩ | ⟨m, hm, _, _⟩
                · exact absurd (hl.key_self s ks hks) (hno s hsm)
                · simp at hm

/-- C20: on a valid tree with lawful callbacks every `btree_insert` and every `btree_remove`
is defined, whatever node or key is passed: no `r_rotate` is called on a node without left
child, no `l_rotate` on a node without right child (the inner rotations of the double
rotations included) and `min_value_node` is never called on `NULL`, since each of these
makes the result undefined. In `delete_node` the guard `removed != NULL` never fails (the
function with the guard made observable returns the same result), and at a matched node with
two children the successor deletion reports the successor and the subtree returned is not
empty. -/
theorem calls_defined [DecidableEq α] {ops : btree_ops α κ} (hl : Lawful ops) (s : btree α)
    (ho : Ordered ops s.root) (hb : Balanced s.root) (hh : HeightsCached s.root)
    (hk : Keyed ops s.root) :
    (∀ node_ptr, ∃ s1 rc, btree_insert ops s node_ptr = some (s1, rc)) ∧
    (∀ key_ptr, ∃ s1 rm, btree_remove ops s key_ptr = some (s1, rm)) ∧
    (∀ key_ptr, delete_node_checked ops s.root key_ptr = delete_node ops s.root key_ptr) ∧
    (∀ l m h r k, s.root = node l m h r → l ≠ null → r ≠ null →
      ops.compare_node_key m k = 0 →
      ∃ sx ks r1 t1, min_value_node r = some sx ∧ ops.get_key_ptr sx = some ks ∧
        delete_node ops r (some ks) = some (r1, some sx) ∧
        delete_node ops s.root (some k) = some (t1, some m) ∧ t1 ≠ null) := by
  have ha : Avl s.root := avl_iff.mpr ⟨hh, hb⟩
  refine ⟨?_, ?_, delete_node_checked_eq hl s.root ho hk, ?_⟩
  · intro node_ptr
    cases node_ptr with
    | none => exact ⟨_, _, rfl⟩
    | some e =>
      cases hg : ops.get_key_ptr e with
      | none => exact ⟨s, -EINVAL, by simp [btree_insert, hg]⟩
      | some k0 =>
        have hke : (ops.get_key_ptr e).isSome = true := by rw [hg]; rfl
        by_cases hm : e ∈ inorder s.root
        · obtain ⟨s1, h1⟩ := btree_insert_linked hl s e hke ho hm
          exact ⟨s1, _, h1⟩
        · obtain ⟨s1, rc, h1, _⟩ := btree_insert_fresh hl s e hke ho ha hm
          exact ⟨s1, rc, h1⟩
  · intro key_ptr
    obtain ⟨s1, rm, h1, _⟩ := btree_remove_valid hl s key_ptr ho hk ha
    exact ⟨s1, rm, h1⟩
  · intro l m h r k hs hl0 hr0 hm
    rw [hs] at ho hb hh hk ⊢
    obtain ⟨sx, rest, ks, r1, h1, _, h3, h4, _, _, ⟨t1, h6, h7⟩, _, _⟩ :=
      delete_node_two_children hl l r m h k hl0 hr0 ho hb hh hk hm
    refine ⟨sx, ks, r1, t1, h1, h3, h4, h6, ?_⟩
    intro hc
    rw [hc] at h7
    simp [inorder] at h7

/-- Witness of C20 on the tree with keys 1, 2, 3. -/
theorem calls_defined_witness :
    Ordered example_ops small_tree.root ∧ Balanced small_tree.root ∧
      HeightsCached small_tree.root ∧ Keyed example_ops small_tree.root ∧
      (∀ node_ptr, ∃ s1 rc, btree_insert example_ops small_tree node_ptr = some (s1, rc)) ∧
      (∀ key_ptr, ∃ s1 rm, btree_remove example_ops small_tree key_ptr = some (s1, rm)) :=
  ⟨by decide, by decide, by decide, by decide,
    (calls_defined example_ops_lawful small_tree (by decide) (by decide) (by decide)
      (by decide)).1,
    (calls_defined example_ops_lawful small_tree (by decide) (by decide) (by decide)
      (by decide)).2.1⟩

theorem fib_le_count : ∀ t : priv_btree_node α, Balanced t →
    Nat.fib (true_height t + 2) ≤ count_nodes t + 1 := by
  intro t
  induction t with
  | null => intro _; simp [true_height, count_nodes]
  | node l x h r ihl ihr =>
    rintro ⟨hbl, hbr, h1, h2⟩
    have il := ihl hbl
    have ir := ihr hbr
    simp only [true_height, count_nodes]
    rcases le_total (true_height r) (true_height l) with hle | hle
    · rw [max_eq_left hle]
      have e1 : 1 + true_height l + 2 = (true_height l + 1) + 2 := by omega
      rw [e1, Nat.fib_add_two]
      have m1 : Nat.fib (true_height l + 1) ≤ Nat.fib (true_height r + 2) :=
        Nat.fib_mono (by omega)
      have e2 : Nat.fib (true_height l + 1 + 1) = Nat.fib (true_height l + 2) := rfl
      omega
    · rw [max_eq_right hle]
      have e1 : 1 + true_height r + 2 = (true_height r + 1) + 2 := by omega
      rw [e1, Nat.fib_add_two]
      have m1 : Nat.fib (true_height r + 1) ≤ Nat.fib (true_height l + 2) :=
        Nat.fib_mono (by omega)
      have e2 : Nat.fib (true_height r + 1 + 1) = Nat.fib (true_height r + 2) := rfl
      omega

theorem two_pow_le_fib_sq : ∀ h : Nat, 2 ^ h ≤ Nat.fib (h + 2) ^ 2 := by
  intro h
  induction h using Nat.strong_induction_on with
  | _ h ih =>
    match h with
    | 0 => simp
    | 1 => decide
    | h + 2 =>
      have i := ih h (by omega)
      have e1 : Nat.fib (h + 2 + 2) = Nat.fib (h + 2) + Nat.fib (h + 2 + 1) := Nat.fib_add_two
      have m1 : Nat.fib (h + 2) ≤ Nat.fib (h + 2 + 1) := Nat.fib_le_fib_succ
      have m2 : 2 * Nat.fib (h + 2) ≤ Nat.fib (h + 2 + 2) := by omega
      calc 2 ^ (h + 2) = 4 * 2 ^ h := by ring
        _ ≤ 4 * Nat.fib (h + 2) ^ 2 := by omega
        _ = (2 * Nat.fib (h + 2)) ^ 2 := by ring
        _ ≤ Nat.fib (h + 2 + 2) ^ 2 := Nat.pow_le_pow_left m2 2

theorem height_le_two_log (h n : Nat) (hp : 2 ^ h ≤ (n + 1) ^ 2) :
    (h : ℝ) ≤ 2 * Real.logb 2 ((n : ℝ) + 1) := by
  have h2 : ((2 : ℝ)) ^ h ≤ ((n : ℝ) + 1) ^ 2 := by exact_mod_cast hp
  have hpos : (0 : ℝ) < (2 : ℝ) ^ h := by positivity
  have h3 := Real.logb_le_logb_of_le (b := 2) (by norm_num) hpos h2
  rw [Real.logb_pow, Real.logb_pow, Real.logb_self_eq_one (by norm_num)] at h3
  simpa using h3

theorem insert_depth_le (ops : btree_ops α κ) (e : α) :
    ∀ t : priv_btree_node α, insert_depth ops t e ≤ true_height t + 1 := by
  intro t
  induction t with
  | null => simp [insert_depth, true_height]
  | node l x h r ihl ihr =>
    simp only [insert_depth, true_height]
    split_ifs <;> omega

theorem get_node_depth_le (ops : btree_ops α κ) (k : κ) :
    ∀ t : priv_btree_node α, get_node_depth ops t k ≤ true_height t + 1 := by
  intro t
  induction t with
  | null => simp [get_node_depth, true_height]
  | node l x h r ihl ihr =>
    simp only [get_node_depth, true_height]
    split_ifs <;> omega

theorem walk_depth_eq : ∀ t : priv_btree_node α, walk_depth t = true_height t + 1 := by
  intro t
  induction t with
  | null => rfl
  | node l x h r ihl ihr =>
    simp only [walk_depth, true_height, ihl, ihr]
    omega

theorem delete_node_depth_node (ops : btree_ops α κ) (l r : priv_btree_node α) (x : α)
    (h : Int) (k : κ) :
    delete_node_depth ops (node l x h r) (some k) =
      if ops.compare_node_key x k > 0 then 1 + delete_node_depth ops l (some k)
      else if ops.compare_node_key x k < 0 then 1 + delete_node_depth ops r (some k)
      else
        match l, r with
        | null, _ => 1
        | node _ _ _ _, null => 1
        | node _ _ _ _, node rl rx rh rr =>
          match min_value_node (node rl rx rh rr) with
          | none => 1
          | some tmp => 1 + delete_node_depth ops (node rl rx rh rr) (ops.get_key_ptr tmp) := by
  cases l <;> cases r <;> rfl

theorem delete_node_depth_le (ops : btree_ops α κ) :
    ∀ (t : priv_btree_node α) (key_ptr : Option κ),
      delete_node_depth ops t key_ptr ≤ true_height t + 1 := by
  intro t
  induction t with
  | null => intro key_ptr; simp [delete_node_depth, true_height]
  | node l x h r ihl ihr =>
    intro key_ptr
    cases key_ptr with
    | none => simp [delete_node_depth, true_height]
    | some k =>
      rw [delete_node_depth_node]
      have i1 := ihl (some k)
      have i2 := ihr (some k)
      simp only [true_height]
      split_ifs
      · omega
      · omega
      · cases l with
        | null => simp only; omega
        | node ll lx lh lr =>
          cases r with
          | null => simp only; omega
          | node rl rx rh rr =>
            simp only
            cases min_value_node (node rl rx rh rr) with
            | none => simp only; omega
            | some tmp =>
              have i3 := ihr (ops.get_key_ptr tmp)
              simp only
              simp only [true_height] at i3 ⊢
              omega

theorem run_successful [DecidableEq α] {ops : btree_ops α κ} (hl : Lawful ops) :
    ∀ (calls : List (call α κ)) (s : btree α), Ordered ops s.root → Keyed ops s.root →
      Avl s.root → successful ops s calls = true →
      ∃ s1, run ops s calls = some s1 ∧ Avl s1.root := by
  intro calls
  induction calls with
  | nil => intro s _ _ ha _; exact ⟨s, rfl, ha⟩
  | cons c cs ih =>
    intro s ho hk ha hs
    have hstep : ∃ s2, step ops s c = some s2 ∧ Avl s2.root ∧ successful ops s2 cs = true := by
      cases c with
      | insert n =>
        simp only [successful] at hs
        cases hi : btree_insert ops s n with
        | none => simp [hi] at hs
        | some p =>
          obtain ⟨s2, rc⟩ := p
          simp only [hi, Bool.and_eq_true, decide_eq_true_eq] at hs
          obtain ⟨hrc, hs2⟩ := hs
          subst hrc
          refine ⟨s2, by simp [step, hi], ?_, hs2⟩
          cases n with
          | none => simp [btree_insert, EINVAL] at hi
          | some e =>
            cases hg : ops.get_key_ptr e with
            | none => simp [btree_insert, hg, EINVAL] at hi
            | some k0 =>
              have hke : (ops.get_key_ptr e).isSome = true := by rw [hg]; rfl
              by_cases hm : e ∈ inorder s.root
              · obtain ⟨s3, h3⟩ := btree_insert_linked hl s e hke ho hm
                rw [hi] at h3
                simp [EEXIST] at h3
              · obtain ⟨s3, rc3, h3, ha3, _⟩ := btree_insert_fresh hl s e hke ho ha hm
                rw [hi] at h3
                simp only [Option.some.injEq, Prod.mk.injEq] at h3
                rw [h3.1]; exact ha3
      | remove kp =>
        simp only [successful] at hs
        obtain ⟨s2, rm, h1, h2⟩ := btree_remove_valid hl s kp ho hk ha
        rw [h1] at hs
        cases rm with
        | none => simp at hs
        | some m =>
          simp only at hs
          exact ⟨s2, by simp [step, h1], h2, hs⟩
    obtain ⟨s2, hst, ha2, hs2⟩ := hstep
    have hok := run_ordered hl [c] s s2 ho hk (by simp [run, hst])
    obtain ⟨s1, hr, ha1⟩ := ih s2 hok.1 hok.2 ha2 hs2
    exact ⟨s1, by simp [run, hst, hr], ha1⟩

/-- C18: in every state reached from `btree_init` by `btree_insert` calls that return 0 and
`btree_remove` calls that return a node, with lawful callbacks, the tree with `n` nodes and
root height `h` (cached at the root, equal to the true height) satisfies
`Fib(h + 2) <= n + 1`, hence `2 ^ h <= (n + 1) ^ 2`, that is `h <= 2 * log2(n + 1)`; the
nesting of `insert`, `delete_node`, `get_node` and `walk` on that tree is at most `h + 1`. -/
theorem logarithmic_height [DecidableEq α] {ops : btree_ops α κ} (hl : Lawful ops)
    (tree : btree α) (calls : List (call α κ))
    (hs : successful ops (btree_init tree) calls = true) :
    ∃ s, run ops (btree_init tree) calls = some s ∧
      height s.root = (true_height s.root : Int) ∧
      Nat.fib (true_height s.root + 2) ≤ count_nodes s.root + 1 ∧
      2 ^ true_height s.root ≤ (count_nodes s.root + 1) ^ 2 ∧
      (true_height s.root : ℝ) ≤ 2 * Real.logb 2 ((count_nodes s.root : ℝ) + 1) ∧
      (∀ e, insert_depth ops s.root e ≤ true_height s.root + 1) ∧
      (∀ key_ptr, delete_node_depth ops s.root key_ptr ≤ true_height s.root + 1) ∧
      (∀ k, get_node_depth ops s.root k ≤ true_height s.root + 1) ∧
      walk_depth s.root ≤ true_height s.root + 1 := by
  obtain ⟨s, hr, ha⟩ := run_successful hl calls (btree_init tree) ordered_null
    (fun x hx => by simp [btree_init, inorder] at hx) trivial hs
  have hfib := fib_le_count s.root (avl_iff.mp ha).2
  have hpow : 2 ^ true_height s.root ≤ (count_nodes s.root + 1) ^ 2 :=
    le_trans (two_pow_le_fib_sq _) (Nat.pow_le_pow_left hfib 2)
  exact ⟨s, hr, ha.true_height, hfib, hpow, height_le_two_log _ _ hpow,
    fun e => insert_depth_le ops e s.root, fun kp => delete_node_depth_le ops s.root kp,
    fun k => get_node_depth_le ops k s.root, le_of_eq (walk_depth_eq s.root)⟩

/-- Witness of C18: the calls of the example program. -/
theorem logarithmic_height_witness :
    successful example_ops (btree_init ⟨null, 0⟩) program_calls = true ∧
      ∃ s, run example_ops (btree_init ⟨null, 0⟩) program_calls = some s ∧
        height s.root = (true_height s.root : Int) ∧
        Nat.fib (true_height s.root + 2) ≤ count_nodes s.root + 1 ∧
        2 ^ true_height s.root ≤ (count_nodes s.root + 1) ^ 2 ∧
        (true_height s.root : ℝ) ≤ 2 * Real.logb 2 ((count_nodes s.root : ℝ) + 1) ∧
        (∀ e, insert_depth example_ops s.root e ≤ true_height s.root + 1) ∧
        (∀ key_ptr, delete_node_depth example_ops s.root key_ptr ≤ true_height s.root + 1) ∧
        (∀ k, get_node_depth example_ops s.root k ≤ true_height s.root + 1) ∧
        walk_depth s.root ≤ true_height s.root + 1 :=
  ⟨by decide,
    logarithmic_height example_ops_lawful ⟨null, 0⟩ program_calls (by decide)⟩

end Btree
